import Mathlib

/-!
Polynomial reconstruction from base-encoded roots (`polynomial.go`).

A shallow embedding of the core of `main` in `polynomial.go`:

* Go strings are byte strings.  The strings the program handles come out of
  `encoding/json`, hence are valid UTF-8; they are represented by Lean `String`s
  and the byte-indexed loops of the source run over `goBytes`, the UTF-8 bytes.
* `int` is the 64-bit two's-complement integer of the usual Go targets; every
  `int` operation that can overflow is followed by `wrapInt`.
* `*big.Int` is `Int`.
* `fmt.Errorf` / `fmt.Sprintf` values are kept as constructors carrying the
  arguments of the format string.
-/

namespace PolyRecon

/-! ## Strings and machine integers -/

/-- The UTF-8 bytes of one code point. -/
def utf8Bytes (c : Char) : List Nat :=
  let v := c.val.toNat
  if v < 0x80 then [v]
  else if v < 0x800 then [0xC0 + v / 0x40, 0x80 + v % 0x40]
  else if v < 0x10000 then [0xE0 + v / 0x1000, 0x80 + v / 0x40 % 0x40, 0x80 + v % 0x40]
  else [0xF0 + v / 0x40000, 0x80 + v / 0x1000 % 0x40, 0x80 + v / 0x40 % 0x40, 0x80 + v % 0x40]

/-- The bytes of a Go string: what `s[i]` and `len(s)` see. -/
def goBytes (s : String) : List Nat :=
  (s.toList.map utf8Bytes).flatten

/-- Go `unicode.IsSpace`: the Latin-1 spaces and the `White_Space` code points. -/
def isSpace (c : Char) : Bool :=
  let v := c.val.toNat
  (0x09 ≤ v && v ≤ 0x0D) || v == 0x20 || v == 0x85 || v == 0xA0 || v == 0x1680 ||
    (0x2000 ≤ v && v ≤ 0x200A) || v == 0x2028 || v == 0x2029 || v == 0x202F ||
    v == 0x205F || v == 0x3000

/-- Go `strings.TrimSpace`: leading and trailing white space removed. -/
def TrimSpace (s : String) : String :=
  String.mk ((s.toList.dropWhile isSpace).reverse.dropWhile isSpace).reverse

/-- Reduction of an integer to the range of Go `int` (64-bit two's complement). -/
def wrapInt (x : Int) : Int :=
  (x + 2 ^ 63) % 2 ^ 64 - 2 ^ 63

/-! ## `parseDecimalToInt` (lines 77-99) -/

/-- The two `fmt.Errorf` values of `parseDecimalToInt`. -/
inductive ParseError where
  /-- `"empty string"` -/
  | emptyString
  /-- `"invalid decimal character '%c' in %q"` with `ch`, `s` -/
  | invalidDecimalCharacter (ch : Nat) (s : String)
  deriving DecidableEq, Repr

/-- The loop `for ; i < len(s); i++` of `parseDecimalToInt`, over the bytes from
index `i` on, with the running `res`. -/
def parseDecimalLoop (s : String) : List Nat → Int → Except ParseError Int
  | [], res => .ok res
  | ch :: rest, res =>
    if ch < 48 ∨ ch > 57 then
      .error (.invalidDecimalCharacter ch s)
    else
      let d : Int := ((ch - 48 : Nat) : Int)
      parseDecimalLoop s rest (wrapInt (wrapInt (res * 10) + d))

/-- The closure `parseDecimalToInt` of `main`. -/
def parseDecimalToInt (s : String) : Except ParseError Int :=
  match goBytes s with
  | [] => .error .emptyString
  | c0 :: rest =>
    if c0 = 43 then
      (parseDecimalLoop s rest 0).map fun res => wrapInt (1 * res)
    else if c0 = 45 then
      (parseDecimalLoop s rest 0).map fun res => wrapInt (-1 * res)
    else
      (parseDecimalLoop s (c0 :: rest) 0).map fun res => wrapInt (1 * res)

/-! ## `convertValueToBig` (lines 120-161) -/

/-- The four `fmt.Errorf` values of `convertValueToBig`. -/
inductive ConvertError where
  /-- `"empty value"` -/
  | emptyValue
  /-- `"empty after sign"` -/
  | emptyAfterSign
  /-- `"invalid character '%c' in value %q"` with `ch`, `value` -/
  | invalidCharacter (ch : Nat) (value : String)
  /-- `"digit %d (char '%c') >= base %d in value %q"` with `digit`, `ch`, `base`, `value` -/
  | digitTooLarge (digit : Int) (ch : Nat) (base : Int) (value : String)
  deriving DecidableEq, Repr

/-- The `switch` of `convertValueToBig` on one byte: its digit, or `none` in the
`default` case. -/
def digitOf (ch : Nat) : Option Int :=
  if 48 ≤ ch ∧ ch ≤ 57 then some ((ch - 48 : Nat) : Int)
  else if 65 ≤ ch ∧ ch ≤ 70 then some ((10 + (ch - 65) : Nat) : Int)
  else if 97 ≤ ch ∧ ch ≤ 102 then some ((10 + (ch - 97) : Nat) : Int)
  else none

/-- The loop `for i := 0; i < len(v); i++` of `convertValueToBig`, over the
bytes of `v` from index `i` on, with the running `res`. -/
def convertLoop (value : String) (base : Int) : List Nat → Int → Except ConvertError Int
  | [], res => .ok res
  | ch :: rest, res =>
    match digitOf ch with
    | none => .error (.invalidCharacter ch value)
    | some digit =>
      if digit ≥ base then
        .error (.digitTooLarge digit ch base value)
      else
        convertLoop value base rest (res * base + digit)

/-- The closure `convertValueToBig` of `main`. -/
def convertValueToBig (value : String) (base : Int) : Except ConvertError Int :=
  match goBytes (TrimSpace value) with
  | [] => .error .emptyValue
  | c0 :: rest =>
    let sign : Int := if c0 = 43 then 1 else if c0 = 45 then -1 else 1
    let v : List Nat := if c0 = 43 then rest else if c0 = 45 then rest else c0 :: rest
    match v with
    | [] => .error .emptyAfterSign
    | _ :: _ =>
      (convertLoop value base v 0).map fun res => if sign < 0 then -res else res

/-! ## The dataset (lines 13-21, 45-59) -/

/-- One entry of the input: `type RootEntry struct`. -/
structure RootEntry where
  Base : String
  Value : String
  deriving DecidableEq, Repr

/-- What `main` works on after the JSON envelope is read: `rootMap`, listed in the
order in which `for key := range rootMap` enumerates it, and `n`, `k` of `Keys`. -/
structure Dataset where
  rootMap : List (String × RootEntry)
  n : Int
  k : Int
  deriving Repr

/-- The map index expression `rootMap[key]`: the zero `RootEntry` for a missing key. -/
def mapIndex (rootMap : List (String × RootEntry)) (key : String) : RootEntry :=
  match rootMap.lookup key with
  | some e => e
  | none => { Base := "", Value := "" }

/-- The strings appended to `problems`, one constructor per `fmt.Sprintf` format. -/
inductive Problem where
  /-- `"Number of root entries found (%d) does not match 'n' (%d)."` -/
  | countMismatch (found : Int) (n : Int)
  /-- `"'k' (%d) is greater than 'n' (%d)."` -/
  | kGreaterThanN (k : Int) (n : Int)
  /-- `"Entry key %q has invalid base %q: %v"` -/
  | invalidBase (key : String) (base : String) (perr : ParseError)
  /-- `"Entry key %q has unsupported base %d (allowed 2..16)."` -/
  | unsupportedBase (key : String) (base : Int)
  /-- `"Entry key %q with base %d and value %q is invalid: %v"` -/
  | invalidValue (key : String) (base : Int) (value : String) (verr : ConvertError)
  deriving DecidableEq, Repr

/-! ## The numeric bubble sort (lines 101-117) -/

/-- The entry of `keyInts` for the key `ks` (lines 103-108). -/
def keyInt (ks : String) : Int :=
  match parseDecimalToInt ks with
  | .error _ => 0
  | .ok v => v

/-- The parallel assignment `xs[i], xs[j] = xs[j], xs[i]`. -/
def swapAt {α : Type} (xs : List α) (i j : Nat) : List α :=
  match xs[i]?, xs[j]? with
  | some a, some b => (xs.set i b).set j a
  | _, _ => xs

/-- The body of the inner loop (lines 112-115) on `(keyInts, keys)`. -/
def sortStep (i j : Nat) (st : List Int × List String) : List Int × List String :=
  if st.1.getD j 0 < st.1.getD i 0 then (swapAt st.1 i j, swapAt st.2 i j) else st

/-- The loop `for j := ...; j < len(keys); j++` from `j` on, `c` iterations left. -/
def sortInner (i : Nat) : Nat → Nat → List Int × List String → List Int × List String
  | _, 0, st => st
  | j, c + 1, st => sortInner i (j + 1) c (sortStep i j st)

/-- The loop `for i := ...; i < len(keys); i++` from `i` on, `c` iterations left. -/
def sortOuter : Nat → Nat → List Int × List String → List Int × List String
  | _, 0, st => st
  | i, c + 1, st =>
    sortOuter (i + 1) c (sortInner i (i + 1) (st.2.length - (i + 1)) st)

/-- Lines 101-117: `(keyInts, keys)` after the sort, from `keys` as enumerated. -/
def sortKeys (keys : List String) : List Int × List String :=
  sortOuter 0 keys.length (keys.map keyInt, keys)

/-! ## Validation (lines 61-68, 162-182) -/

/-- Lines 61-68: `problems` after the two structural checks. -/
def structuralProblems (ds : Dataset) : List Problem :=
  let problems : List Problem := []
  let problems :=
    if (ds.rootMap.length : Int) ≠ ds.n then
      problems ++ [Problem.countMismatch ds.rootMap.length ds.n]
    else problems
  if ds.k > ds.n then problems ++ [Problem.kGreaterThanN ds.k ds.n] else problems

/-- The body of the loop of lines 162-182 on `(problems, convertedRoots)`. -/
def entryStep (rootMap : List (String × RootEntry)) (st : List Problem × List Int)
    (key : String) : List Problem × List Int :=
  let entry := mapIndex rootMap key
  match parseDecimalToInt (TrimSpace entry.Base) with
  | .error perr => (st.1 ++ [Problem.invalidBase key entry.Base perr], st.2 ++ [0])
  | .ok base =>
    if base < 2 ∨ base > 16 then
      (st.1 ++ [Problem.unsupportedBase key base], st.2 ++ [0])
    else
      match convertValueToBig entry.Value base with
      | .error verr =>
        (st.1 ++ [Problem.invalidValue key base entry.Value verr], st.2 ++ [0])
      | .ok valBig => (st.1, st.2 ++ [valBig])

/-- Lines 61-182: `(problems, convertedRoots)` when the loop over the sorted keys ends. -/
def validate (ds : Dataset) : List Problem × List Int :=
  (sortKeys (ds.rootMap.map Prod.fst)).2.foldl (entryStep ds.rootMap)
    (structuralProblems ds, [])

/-! ## Selection, expansion and output (lines 197-221) -/

/-- The run-time panics `main` can raise after validation. -/
inductive Panic where
  /-- `make([]*big.Int, 0, k)` with a negative `k`: makeslice, cap out of range -/
  | makesliceCapOutOfRange
  /-- `convertedRoots[i]` with `i` not below `len(convertedRoots)` -/
  | indexOutOfRange (i : Nat) (len : Nat)
  deriving DecidableEq, Repr

/-- The loop `for i := ...; i < k; i++` of lines 198-200, `c` iterations left. -/
def selectLoop (convertedRoots : List Int) : Nat → Nat → List Int → Except Panic (List Int)
  | _, 0, selected => .ok selected
  | i, c + 1, selected =>
    match convertedRoots[i]? with
    | none => .error (.indexOutOfRange i convertedRoots.length)
    | some r => selectLoop convertedRoots (i + 1) c (selected ++ [r])

/-- Lines 197-200: `selected`. -/
def selectRoots (convertedRoots : List Int) (k : Int) : Except Panic (List Int) :=
  if k < 0 then .error .makesliceCapOutOfRange
  else selectLoop convertedRoots 0 k.toNat []

/-- The body of the loop of lines 208-213 on `newCoeffs`. -/
def expandBody (coeffs : List Int) (r : Int) (newCoeffs : List Int) (i : Nat) : List Int :=
  let newCoeffs := newCoeffs.set (i + 1) (newCoeffs.getD (i + 1) 0 + coeffs.getD i 0)
  let temp := coeffs.getD i 0 * r
  let temp := -temp
  newCoeffs.set i (newCoeffs.getD i 0 + temp)

/-- The loop `for i := ...; i < len(coeffs); i++` of lines 208-213, `c` iterations left. -/
def expandInner (coeffs : List Int) (r : Int) : Nat → Nat → List Int → List Int
  | _, 0, newCoeffs => newCoeffs
  | i, c + 1, newCoeffs => expandInner coeffs r (i + 1) c (expandBody coeffs r newCoeffs i)

/-- One iteration of the loop over `selected` (lines 204-214): the next `coeffs`. -/
def expandStep (coeffs : List Int) (r : Int) : List Int :=
  expandInner coeffs r 0 coeffs.length (List.replicate (coeffs.length + 1) 0)

/-- Lines 202-215: `coeffs` after the loop over `selected`; index `i` holds the
coefficient the loop built at `coeffs[i]`. -/
def expand (selected : List Int) : List Int :=
  selected.foldl expandStep [1]

/-- The method `(*big.Int).String`: the decimal text, `-` first when negative. -/
def bigString (x : Int) : String :=
  match x with
  | Int.ofNat m => Nat.repr m
  | Int.negSucc m => "-" ++ Nat.repr (m + 1)

/-- The loop `for i := len(coeffs) - 1; i >= 0; i--` of lines 218-220; `c` is `i + 1`. -/
def outLoop (coeffs : List Int) : Nat → List String → List String
  | 0, out => out
  | i + 1, out => outLoop coeffs i (out ++ [bigString (coeffs.getD i 0)])

/-- Lines 217-220: `out`. -/
def outStrings (coeffs : List Int) : List String :=
  outLoop coeffs coeffs.length []

/-- What a run of `main` ends with. -/
inductive Outcome where
  /-- Lines 184-190: `Wrong Dataset` and one line per problem. -/
  | wrongDataset (problems : List Problem)
  /-- Lines 192-196: `Wrong Dataset` and the post-pass discrepancy line. -/
  | rootCountDiffers (found : Int) (n : Int)
  /-- A run-time panic: the program aborts. -/
  | panicked (p : Panic)
  /-- Line 221: the joined coefficient line. -/
  | coefficients (line : String)
  deriving DecidableEq, Repr

/-- Lines 61-221 of `main`. -/
def pipeline (ds : Dataset) : Outcome :=
  let (problems, convertedRoots) := validate ds
  if problems.length > 0 then .wrongDataset problems
  else if (convertedRoots.length : Int) ≠ ds.n then
    .rootCountDiffers convertedRoots.length ds.n
  else
    match selectRoots convertedRoots ds.k with
    | .error p => .panicked p
    | .ok selected => .coefficients (String.intercalate " " (outStrings (expand selected)))

/-! ## The spec's reading of a value string -/

/-- Spec 4.2, for comparison with the `switch` of `convertValueToBig`: the numeric
value of a digit character, `0`-`9`, or `A`-`F` / `a`-`f` read as 10-15. -/
def specDigitValue (c : Char) : Option Nat :=
  if '0'.toNat ≤ c.toNat ∧ c.toNat ≤ '9'.toNat then some (c.toNat - '0'.toNat)
  else if 'A'.toNat ≤ c.toNat ∧ c.toNat ≤ 'F'.toNat then some (10 + (c.toNat - 'A'.toNat))
  else if 'a'.toNat ≤ c.toNat ∧ c.toNat ≤ 'f'.toNat then some (10 + (c.toNat - 'a'.toNat))
  else none

/-- Spec 4.2, for comparison with lines 126-131: one optional leading `+` or `-`
removed. -/
def specStripSign (cs : List Char) : List Char :=
  match cs with
  | [] => []
  | c :: rest => if c = '+' ∨ c = '-' then rest else c :: rest

/-! ## Facts about the expansion loop -/

theorem getD_set_zero (l : List Int) (i j : Nat) (a : Int) :
    (l.set i a).getD j 0 = if i = j ∧ i < l.length then a else l.getD j 0 := by
  simp only [List.getD_eq_getElem?_getD, List.getElem?_set]
  by_cases h : i = j
  · subst h
    by_cases h2 : i < l.length
    · simp [h2]
    · simp [h2, List.getElem?_eq_none (Nat.le_of_not_lt h2)]
  · simp [h]

theorem expandBody_length (coeffs : List Int) (r : Int) (nc : List Int) (i : Nat) :
    (expandBody coeffs r nc i).length = nc.length := by
  simp [expandBody]

theorem expandInner_length (coeffs : List Int) (r : Int) :
    ∀ (c i : Nat) (nc : List Int), (expandInner coeffs r i c nc).length = nc.length := by
  intro c
  induction c with
  | zero => intro i nc; rfl
  | succ c ih =>
    intro i nc
    rw [expandInner, ih, expandBody_length]

theorem expandBody_getD (coeffs : List Int) (r : Int) (nc : List Int) (i : Nat)
    (hi : i + 1 < nc.length) (j : Nat) :
    (expandBody coeffs r nc i).getD j 0 =
      nc.getD j 0 + (if j = i + 1 then coeffs.getD i 0 else 0)
        + (if j = i then -(coeffs.getD i 0 * r) else 0) := by
  have hi0 : i < nc.length := by omega
  simp only [expandBody, getD_set_zero, List.length_set]
  by_cases h1 : j = i
  · subst h1
    simp [hi0]
  · by_cases h2 : j = i + 1
    · subst h2
      simp [hi]
    · have h1' : ¬ i = j := fun h => h1 h.symm
      have h2' : ¬ i + 1 = j := fun h => h2 h.symm
      simp [h1, h2, h1', h2']

theorem expandInner_getD (coeffs : List Int) (r : Int) :
    ∀ (c i : Nat) (nc : List Int), i + c < nc.length → ∀ j : Nat,
      (expandInner coeffs r i c nc).getD j 0 =
        nc.getD j 0 + (if i + 1 ≤ j ∧ j < i + 1 + c then coeffs.getD (j - 1) 0 else 0)
          + (if i ≤ j ∧ j < i + c then -(coeffs.getD j 0 * r) else 0) := by
  intro c
  induction c with
  | zero =>
    intro i nc _ j
    have h1 : ¬ (i + 1 ≤ j ∧ j < i + 1 + 0) := by omega
    have h2 : ¬ (i ≤ j ∧ j < i + 0) := by omega
    simp [expandInner, h1, h2]
  | succ c ih =>
    intro i nc hlen j
    rw [expandInner, ih (i + 1) _ (by rw [expandBody_length]; omega) j,
      expandBody_getD coeffs r nc i (by omega) j]
    by_cases h1 : j = i
    · subst h1
      have a1 : ¬ (j + 1 + 1 ≤ j ∧ j < j + 1 + 1 + c) := by omega
      have a2 : ¬ (j + 1 ≤ j ∧ j < j + 1 + c) := by omega
      have a3 : ¬ (j + 1 ≤ j ∧ j < j + 1 + (c + 1)) := by omega
      have a4 : (j ≤ j ∧ j < j + (c + 1)) := by omega
      simp [a1, a2, a3, a4]
    · by_cases h2 : j = i + 1
      · subst h2
        have a1 : ¬ (i + 1 + 1 ≤ i + 1 ∧ i + 1 < i + 1 + 1 + c) := by omega
        have a3 : (i + 1 ≤ i + 1 ∧ i + 1 < i + 1 + (c + 1)) := by omega
        by_cases h3 : i + 1 < i + 1 + c
        · have a2 : (i + 1 ≤ i + 1 ∧ i + 1 < i + 1 + c) := by omega
          have a4 : (i ≤ i + 1 ∧ i + 1 < i + (c + 1)) := by omega
          simp [a1, a2, a3, a4]
        · have a2 : ¬ (i + 1 ≤ i + 1 ∧ i + 1 < i + 1 + c) := by omega
          have a4 : ¬ (i ≤ i + 1 ∧ i + 1 < i + (c + 1)) := by omega
          simp [a1, a2, a3, a4]
      · simp only [h1, h2, if_false, add_zero]
        have e1 : (i + 1 + 1 ≤ j ∧ j < i + 1 + 1 + c) ↔ (i + 1 ≤ j ∧ j < i + 1 + (c + 1)) := by
          omega
        have e2 : (i + 1 ≤ j ∧ j < i + 1 + c) ↔ (i ≤ j ∧ j < i + (c + 1)) := by omega
        simp only [e1, e2]

theorem expandStep_length (coeffs : List Int) (r : Int) :
    (expandStep coeffs r).length = coeffs.length + 1 := by
  simp [expandStep, expandInner_length]

theorem expandStep_getD (coeffs : List Int) (r : Int) (j : Nat) :
    (expandStep coeffs r).getD j 0 =
      (if 1 ≤ j then coeffs.getD (j - 1) 0 else 0) - coeffs.getD j 0 * r := by
  rw [expandStep, expandInner_getD coeffs r coeffs.length 0 _ (by simp) j]
  have h0 : (List.replicate (coeffs.length + 1) (0 : Int)).getD j 0 = 0 := by
    simp only [List.getD_eq_getElem?_getD, List.getElem?_replicate]
    split <;> rfl
  rw [h0]
  by_cases hj : j < coeffs.length
  · have a2 : (0 ≤ j ∧ j < 0 + coeffs.length) := by omega
    by_cases hj1 : 1 ≤ j
    · have a1 : (0 + 1 ≤ j ∧ j < 0 + 1 + coeffs.length) := by omega
      rw [if_pos a1, if_pos a2, if_pos hj1]; ring
    · have a1 : ¬ (0 + 1 ≤ j ∧ j < 0 + 1 + coeffs.length) := by omega
      rw [if_neg a1, if_pos a2, if_neg hj1]; ring
  · have a2 : ¬ (0 ≤ j ∧ j < 0 + coeffs.length) := by omega
    have hz : coeffs.getD j 0 = 0 := List.getD_eq_default _ _ (by omega)
    by_cases hj1 : 1 ≤ j ∧ j < 1 + coeffs.length
    · have a1 : (0 + 1 ≤ j ∧ j < 0 + 1 + coeffs.length) := by omega
      rw [if_pos a1, if_neg a2, if_pos hj1.1, hz]; ring
    · have a1 : ¬ (0 + 1 ≤ j ∧ j < 0 + 1 + coeffs.length) := by omega
      have hz2 : (if 1 ≤ j then coeffs.getD (j - 1) 0 else 0) = 0 := by
        split
        · exact List.getD_eq_default _ _ (by omega)
        · rfl
      rw [if_neg a1, if_neg a2, hz, hz2]; ring

/-- The product `(X - r₁)(X - r₂)⋯(X - rₖ)` has, at every index, the coefficient the
expansion loop leaves in `coeffs`. -/
theorem expand_getD_aux (roots : List Int) :
    ∀ (coeffs : List Int) (q : Polynomial Int),
      (∀ j : Nat, coeffs.getD j 0 = q.coeff j) →
      ∀ j : Nat, (roots.foldl expandStep coeffs).getD j 0 =
        (q * (roots.map fun r => Polynomial.X - Polynomial.C r).prod).coeff j := by
  induction roots with
  | nil => intro coeffs q h j; simpa using h j
  | cons r rs ih =>
    intro coeffs q h j
    rw [List.foldl_cons, List.map_cons, List.prod_cons, ← mul_assoc]
    apply ih
    intro i
    rw [expandStep_getD]
    cases i with
    | zero =>
      rw [Polynomial.mul_coeff_zero, ← h 0]
      simp
    | succ i =>
      rw [Polynomial.coeff_mul_X_sub_C, ← h i, ← h (i + 1)]
      simp

theorem expand_getD (roots : List Int) (j : Nat) :
    (expand roots).getD j 0 =
      ((roots.map fun r => Polynomial.X - Polynomial.C r).prod).coeff j := by
  have h := expand_getD_aux roots [1] 1 (by
    intro j
    cases j with
    | zero => simp
    | succ j => simp [Polynomial.coeff_one]) j
  simpa [expand] using h

theorem expand_length (roots : List Int) : (expand roots).length = roots.length + 1 := by
  have h : ∀ (rs : List Int) (coeffs : List Int),
      (rs.foldl expandStep coeffs).length = coeffs.length + rs.length := by
    intro rs
    induction rs with
    | nil => intro coeffs; simp
    | cons r rs ih =>
      intro coeffs
      rw [List.foldl_cons, ih, expandStep_length, List.length_cons]
      omega
  rw [expand, h]
  simp [Nat.add_comm]

theorem outLoop_eq (coeffs : List Int) :
    ∀ (c : Nat) (out : List String), c ≤ coeffs.length →
      outLoop coeffs c out = out ++ ((coeffs.take c).reverse.map bigString) := by
  intro c
  induction c with
  | zero => intro out _; simp [outLoop]
  | succ c ih =>
    intro out hc
    have hlt : c < coeffs.length := hc
    rw [outLoop, ih _ (by omega), List.take_succ, List.getD_eq_getElem _ _ hlt,
      List.getElem?_eq_getElem hlt]
    simp only [Option.toList, List.reverse_append, List.reverse_cons, List.reverse_nil,
      List.map_append, List.map_cons, List.map_nil, List.append_assoc, List.cons_append,
      List.nil_append]

theorem outStrings_eq (coeffs : List Int) :
    outStrings coeffs = coeffs.reverse.map bigString := by
  rw [outStrings, outLoop_eq coeffs coeffs.length [] (le_refl _)]
  simp

theorem rootProduct_monic_natDegree (roots : List Int) :
    ((roots.map fun r => (Polynomial.X - Polynomial.C r : Polynomial Int)).prod).Monic ∧
      ((roots.map fun r => (Polynomial.X - Polynomial.C r : Polynomial Int)).prod).natDegree
        = roots.length := by
  induction roots with
  | nil => simp
  | cons r rs ih =>
    rw [List.map_cons, List.prod_cons]
    refine ⟨(Polynomial.monic_X_sub_C r).mul ih.1, ?_⟩
    rw [Polynomial.Monic.natDegree_mul (Polynomial.monic_X_sub_C r) ih.1,
      Polynomial.natDegree_X_sub_C, ih.2, List.length_cons]
    omega

theorem expand_reverse_eq (roots : List Int) :
    (expand roots).reverse =
      (List.range (roots.length + 1)).map fun i =>
        ((roots.map fun r => (Polynomial.X - Polynomial.C r : Polynomial Int)).prod).coeff
          (roots.length - i) := by
  apply List.ext_getElem
  · simp [expand_length]
  · intro n h1 h2
    have hn : n < roots.length + 1 := by simpa [expand_length] using h1
    rw [List.getElem_reverse, List.getElem_map, List.getElem_range, ← expand_getD,
      List.getD_eq_getElem _ _ (by rw [expand_length]; omega)]
    congr 1
    rw [expand_length]
    omega

theorem outStrings_expand_eq (roots : List Int) :
    outStrings (expand roots) =
      ((List.range (roots.length + 1)).map fun i =>
        bigString
          (((roots.map fun r => (Polynomial.X - Polynomial.C r : Polynomial Int)).prod).coeff
            (roots.length - i))) := by
  rw [outStrings_eq, expand_reverse_eq, List.map_map]
  rfl

/-- C2: for every finite sequence of integer roots, the expansion loop followed by the
output reversal yields the coefficients, highest degree first, of the product
`(X - r₁)(X - r₂)⋯(X - rₖ)`, a polynomial of degree `k`; the emitted strings are the
decimal texts of these coefficients in that order. -/
theorem expand_output_is_product_coefficients (roots : List Int) :
    ((roots.map fun r => (Polynomial.X - Polynomial.C r : Polynomial Int)).prod).natDegree
        = roots.length ∧
    (expand roots).reverse =
      ((List.range (roots.length + 1)).map fun i =>
        ((roots.map fun r => (Polynomial.X - Polynomial.C r : Polynomial Int)).prod).coeff
          (roots.length - i)) ∧
    outStrings (expand roots) =
      ((List.range (roots.length + 1)).map fun i =>
        bigString
          (((roots.map fun r => (Polynomial.X - Polynomial.C r : Polynomial Int)).prod).coeff
            (roots.length - i))) := by
  exact ⟨(rootProduct_monic_natDegree roots).2, expand_reverse_eq roots,
    outStrings_expand_eq roots⟩

/-- C3: for every sequence of `k` integer roots (the empty one included) the emitted
sequence has exactly `k + 1` elements, and its first element is the coefficient `1`,
emitted as the decimal string `"1"`. -/
theorem emitted_length_succ_and_leading_one (roots : List Int) :
    (outStrings (expand roots)).length = roots.length + 1 ∧
    (expand roots).reverse.head? = some 1 ∧
    (outStrings (expand roots)).head? = some "1" := by
  have hrev := expand_reverse_eq roots
  have hm := rootProduct_monic_natDegree roots
  have hlead : (expand roots).reverse.head? = some 1 := by
    rw [hrev, List.range_succ_eq_map]
    simp only [List.map_cons, List.head?_cons, Nat.sub_zero]
    have h := hm.1.coeff_natDegree
    rw [hm.2] at h
    rw [h]
  refine ⟨?_, hlead, ?_⟩
  · rw [outStrings_eq]
    simp [expand_length]
  · rw [outStrings_eq, List.head?_map, hlead]
    rfl

/-- C4: for every sequence of integer roots and every root `r` of the sequence, the
polynomial given by the expanded coefficients evaluates to `0` at `r`, both read as
`coeffs[i]` being the coefficient of `x^i` and read off the emitted order, highest
degree first. -/
theorem expanded_polynomial_vanishes_at_each_root (roots : List Int) (r : Int)
    (hr : r ∈ roots) :
    (∑ i ∈ Finset.range (expand roots).length, (expand roots).getD i 0 * r ^ i) = 0 ∧
    (∑ i ∈ Finset.range (roots.length + 1),
      (expand roots).reverse.getD i 0 * r ^ (roots.length - i)) = 0 := by
  have hm := rootProduct_monic_natDegree roots
  have hev : Polynomial.eval r
      ((roots.map fun r => (Polynomial.X - Polynomial.C r : Polynomial Int)).prod) = 0 := by
    rw [Polynomial.eval_list_prod]
    apply List.prod_eq_zero
    simp only [List.map_map, List.mem_map]
    exact ⟨r, hr, by simp⟩
  have hsum : (∑ i ∈ Finset.range (roots.length + 1), (expand roots).getD i 0 * r ^ i) = 0 := by
    have h1 : (∑ i ∈ Finset.range (roots.length + 1), (expand roots).getD i 0 * r ^ i) =
        Polynomial.eval r
          ((roots.map fun r => (Polynomial.X - Polynomial.C r : Polynomial Int)).prod) := by
      rw [Polynomial.eval_eq_sum_range, hm.2]
      apply Finset.sum_congr rfl
      intro i _
      rw [expand_getD]
    rw [h1, hev]
  refine ⟨by rw [expand_length]; exact hsum, ?_⟩
  have h2 : (∑ i ∈ Finset.range (roots.length + 1),
      (expand roots).reverse.getD i 0 * r ^ (roots.length - i)) =
      ∑ i ∈ Finset.range (roots.length + 1),
        (fun j => (expand roots).getD j 0 * r ^ j) (roots.length + 1 - 1 - i) := by
    apply Finset.sum_congr rfl
    intro i hi
    have hi2 : i < roots.length + 1 := Finset.mem_range.mp hi
    have e1 : roots.length + 1 - 1 - i = roots.length - i := by omega
    have e2 : (expand roots).length - 1 - i = roots.length - i := by
      rw [expand_length]; omega
    simp only [e1]
    rw [List.getD_eq_getElem _ _ (by rw [List.length_reverse, expand_length]; exact hi2),
      List.getElem_reverse, List.getD_eq_getElem _ _ (by rw [expand_length]; omega)]
    simp only [e2]
  rw [h2, Finset.sum_range_reflect (fun j => (expand roots).getD j 0 * r ^ j)]
  exact hsum

theorem expanded_polynomial_vanishes_at_each_root_witness :
    (7 : Int) ∈ [4, 7] ∧
    ((∑ i ∈ Finset.range (expand [4, 7]).length, (expand [4, 7]).getD i 0 * (7 : Int) ^ i) = 0 ∧
    (∑ i ∈ Finset.range (([4, 7] : List Int).length + 1),
      (expand [4, 7]).reverse.getD i 0 * (7 : Int) ^ (([4, 7] : List Int).length - i)) = 0) :=
  ⟨by decide, expanded_polynomial_vanishes_at_each_root [4, 7] 7 (by decide)⟩

/-! ## Facts about the bytes of a string -/

theorem utf8Bytes_ascii (c : Char) (h : c.val.toNat < 128) : utf8Bytes c = [c.val.toNat] := by
  simp [utf8Bytes, h]

theorem utf8Bytes_head (c : Char) (h : ¬ c.val.toNat < 128) :
    ∃ b0 rest, utf8Bytes c = b0 :: rest ∧ 128 ≤ b0 := by
  unfold utf8Bytes
  simp only [h, if_false]
  split
  · exact ⟨_, _, rfl, by omega⟩
  · split
    · exact ⟨_, _, rfl, by omega⟩
    · exact ⟨_, _, rfl, by omega⟩

theorem digitOf_toNat (c : Char) :
    digitOf c.toNat = (specDigitValue c).map fun d => (d : Int) := by
  have e0 : '0'.toNat = 48 := rfl
  have e9 : '9'.toNat = 57 := rfl
  have eA : 'A'.toNat = 65 := rfl
  have eF : 'F'.toNat = 70 := rfl
  have ea : 'a'.toNat = 97 := rfl
  have ef : 'f'.toNat = 102 := rfl
  unfold digitOf specDigitValue
  rw [e0, e9, eA, eF, ea, ef]
  split
  · rfl
  · split
    · rfl
    · split
      · rfl
      · rfl

theorem specDigitValue_ascii (c : Char) (d : Nat) (h : specDigitValue c = some d) :
    c.toNat < 128 ∧ c.toNat ≠ 43 ∧ c.toNat ≠ 45 := by
  have e0 : '0'.toNat = 48 := rfl
  have e9 : '9'.toNat = 57 := rfl
  have eA : 'A'.toNat = 65 := rfl
  have eF : 'F'.toNat = 70 := rfl
  have ea : 'a'.toNat = 97 := rfl
  have ef : 'f'.toNat = 102 := rfl
  unfold specDigitValue at h
  rw [e0, e9, eA, eF, ea, ef] at h
  split at h
  · omega
  · split at h
    · omega
    · split at h
      · omega
      · cases h

theorem digitOf_none_of_ge (b0 : Nat) (h : 128 ≤ b0) : digitOf b0 = none := by
  unfold digitOf
  rw [if_neg (by omega), if_neg (by omega), if_neg (by omega)]

/-- One digit character below the base is consumed by one turn of the loop. -/
theorem convertLoop_digit (value : String) (base : Int) (c : Char) (d : Nat) (bs : List Nat)
    (res : Int) (h : specDigitValue c = some d) (hd : (d : Int) < base) :
    convertLoop value base (utf8Bytes c ++ bs) res =
      convertLoop value base bs (res * base + d) := by
  have ha := (specDigitValue_ascii c d h).1
  have hb : utf8Bytes c = [c.toNat] := utf8Bytes_ascii c ha
  have hdig : digitOf c.toNat = some (d : Int) := by rw [digitOf_toNat, h]; rfl
  rw [hb, List.singleton_append, convertLoop, hdig]
  exact if_neg (by omega)

/-- A character that is not a digit below the base stops the loop with an error. -/
theorem convertLoop_bad (value : String) (base : Int) (c : Char) (bs : List Nat) (res : Int)
    (h : ¬ ∃ d : Nat, specDigitValue c = some d ∧ (d : Int) < base) :
    ∃ e, convertLoop value base (utf8Bytes c ++ bs) res = .error e := by
  by_cases ha : c.val.toNat < 128
  · have hb : utf8Bytes c = [c.toNat] := utf8Bytes_ascii c ha
    rw [hb, List.singleton_append, convertLoop, digitOf_toNat]
    cases hs : specDigitValue c with
    | none => exact ⟨_, rfl⟩
    | some d =>
      have hge : (d : Int) ≥ base := by
        by_contra hlt
        exact h ⟨d, hs, by omega⟩
      exact ⟨_, if_pos hge⟩
  · obtain ⟨b0, rest, hb, hge⟩ := utf8Bytes_head c ha
    rw [hb, List.cons_append, convertLoop, digitOf_none_of_ge b0 hge]
    exact ⟨_, rfl⟩
theorem utf8Bytes_cons (c : Char) : ∃ b0 rest, utf8Bytes c = b0 :: rest := by
  by_cases ha : c.val.toNat < 128
  · exact ⟨_, _, utf8Bytes_ascii c ha⟩
  · obtain ⟨b0, rest, hb, _⟩ := utf8Bytes_head c ha
    exact ⟨b0, rest, hb⟩

theorem toNat_eq_iff (c d : Char) : c.toNat = d.toNat ↔ c = d := by
  constructor
  · intro h
    apply Char.ext
    apply UInt32.ext
    exact h
  · intro h; rw [h]

/-- The first byte of a character is that of `+` (or `-`) only for that character. -/
theorem utf8Bytes_sign (c : Char) (b0 : Nat) (rest : List Nat) (h : utf8Bytes c = b0 :: rest) :
    (b0 = 43 ↔ c = '+') ∧ (b0 = 45 ↔ c = '-') ∧ (b0 = 43 ∨ b0 = 45 → rest = []) := by
  by_cases ha : c.val.toNat < 128
  · rw [utf8Bytes_ascii c ha] at h
    injection h with h1 h2
    have ep : '+'.toNat = 43 := rfl
    have em : '-'.toNat = 45 := rfl
    refine ⟨?_, ?_, fun _ => h2.symm⟩
    · rw [← toNat_eq_iff, ep, ← h1]; rfl
    · rw [← toNat_eq_iff, em, ← h1]; rfl
  · obtain ⟨b1, rest1, hb, hge⟩ := utf8Bytes_head c ha
    rw [hb] at h
    injection h with h1 h2
    have ep : '+'.toNat = 43 := rfl
    have em : '-'.toNat = 45 := rfl
    have hc : ¬ c.toNat < 128 := ha
    refine ⟨?_, ?_, ?_⟩
    · constructor
      · intro h; omega
      · intro h; rw [h, ep] at hc; omega
    · constructor
      · intro h; omega
      · intro h; rw [h, em] at hc; omega
    · intro h; omega

theorem convertLoop_digits (value : String) (base : Int) :
    ∀ (digits : List Char) (ds : List Nat) (res : Int),
      digits.map specDigitValue = ds.map some → (∀ d ∈ ds, (d : Int) < base) →
      convertLoop value base (digits.map utf8Bytes).flatten res =
        .ok (ds.foldl (fun (a : Int) (d : Nat) => a * base + (d : Int)) res) := by
  intro digits
  induction digits with
  | nil =>
    intro ds res h _
    cases ds with
    | nil => rfl
    | cons d ds => simp at h
  | cons c cs ih =>
    intro ds res h hlt
    cases ds with
    | nil => simp at h
    | cons d ds =>
      simp only [List.map_cons, List.cons.injEq] at h
      rw [List.map_cons, List.flatten_cons,
        convertLoop_digit value base c d _ res h.1 (hlt d (List.mem_cons_self _ _)),
        ih ds _ h.2 (fun x hx => hlt x (List.mem_cons_of_mem _ hx))]
      rfl

theorem convertLoop_error_iff (value : String) (base : Int) :
    ∀ (cs : List Char) (res : Int),
      (∃ e, convertLoop value base (cs.map utf8Bytes).flatten res = .error e) ↔
        ∃ c ∈ cs, ¬ ∃ d : Nat, specDigitValue c = some d ∧ (d : Int) < base := by
  intro cs
  induction cs with
  | nil =>
    intro res
    constructor
    · rintro ⟨e, he⟩
      simp [convertLoop] at he
    · rintro ⟨c, hc, _⟩
      cases hc
  | cons c cs ih =>
    intro res
    rw [List.map_cons, List.flatten_cons]
    by_cases hgood : ∃ d : Nat, specDigitValue c = some d ∧ (d : Int) < base
    · obtain ⟨d, hd, hlt⟩ := hgood
      rw [convertLoop_digit value base c d _ res hd hlt, ih]
      constructor
      · rintro ⟨x, hx, hbad⟩
        exact ⟨x, List.mem_cons_of_mem _ hx, hbad⟩
      · rintro ⟨x, hx, hbad⟩
        rcases List.mem_cons.mp hx with rfl | hx
        · exact absurd ⟨d, hd, hlt⟩ hbad
        · exact ⟨x, hx, hbad⟩
    · constructor
      · intro _
        exact ⟨c, List.mem_cons_self _ _, hgood⟩
      · intro _
        exact convertLoop_bad value base c _ res hgood

theorem foldl_positional (base : Int) :
    ∀ (ds : List Nat) (res : Int),
      ds.foldl (fun (a : Int) (d : Nat) => a * base + (d : Int)) res =
        res * base ^ ds.length +
          ∑ i ∈ Finset.range ds.length, (ds.getD i 0 : Int) * base ^ (ds.length - 1 - i) := by
  intro ds
  induction ds with
  | nil => intro res; simp
  | cons d ds ih =>
    intro res
    have e : ∀ i : Nat, ds.length + 1 - 1 - (i + 1) = ds.length - 1 - i := by
      intro i; omega
    rw [List.foldl_cons, ih, List.length_cons, Finset.sum_range_succ']
    have hs : (∑ i ∈ Finset.range ds.length,
          (((d :: ds).getD (i + 1) 0 : Nat) : Int) * base ^ (ds.length + 1 - 1 - (i + 1))) =
        ∑ i ∈ Finset.range ds.length, ((ds.getD i 0 : Nat) : Int) * base ^ (ds.length - 1 - i) :=
      Finset.sum_congr rfl (fun i _ => by rw [List.getD_cons_succ, e])
    rw [hs, List.getD_cons_zero, Nat.add_sub_cancel, Nat.sub_zero]
    ring
theorem convertValueToBig_empty (value : String) (base : Int)
    (ht : (TrimSpace value).toList = []) :
    convertValueToBig value base = .error .emptyValue := by
  simp only [convertValueToBig, goBytes, ht, List.map_nil, List.flatten_nil]

theorem convertValueToBig_unsigned (value : String) (base : Int) (c : Char) (rest : List Char)
    (ht : (TrimSpace value).toList = c :: rest) (hp : c ≠ '+') (hm : c ≠ '-') :
    convertValueToBig value base =
      (convertLoop value base ((c :: rest).map utf8Bytes).flatten 0).map fun res => res := by
  obtain ⟨b0, rest0, hb⟩ := utf8Bytes_cons c
  obtain ⟨h43, h45, _⟩ := utf8Bytes_sign c b0 rest0 hb
  have n43 : ¬ b0 = 43 := fun h => hp (h43.mp h)
  have n45 : ¬ b0 = 45 := fun h => hm (h45.mp h)
  have n10 : ¬ ((1 : Int) < 0) := by decide
  simp only [convertValueToBig, goBytes, ht, List.map_cons, List.flatten_cons, hb,
    List.cons_append, n43, n45, n10, if_false]

theorem convertValueToBig_sign_only (value : String) (base : Int) (c : Char)
    (ht : (TrimSpace value).toList = [c]) (hc : c = '+' ∨ c = '-') :
    convertValueToBig value base = .error .emptyAfterSign := by
  obtain ⟨b0, rest0, hb⟩ := utf8Bytes_cons c
  obtain ⟨h43, h45, hr⟩ := utf8Bytes_sign c b0 rest0 hb
  have hs : b0 = 43 ∨ b0 = 45 := hc.imp h43.mpr h45.mpr
  have hr0 := hr hs
  subst hr0
  have n4543 : ¬ ((45 : Nat) = 43) := by decide
  rcases hs with h | h
  · simp only [convertValueToBig, goBytes, ht, List.map_cons, List.map_nil, List.flatten_cons,
      List.flatten_nil, hb, List.append_nil, h, if_true]
  · simp only [convertValueToBig, goBytes, ht, List.map_cons, List.map_nil, List.flatten_cons,
      List.flatten_nil, hb, List.append_nil, h, n4543, if_true, if_false]

theorem convertValueToBig_signed (value : String) (base : Int) (c c1 : Char)
    (rest : List Char) (ht : (TrimSpace value).toList = c :: c1 :: rest)
    (hc : c = '+' ∨ c = '-') :
    convertValueToBig value base =
      (convertLoop value base ((c1 :: rest).map utf8Bytes).flatten 0).map
        fun res => if c = '-' then -res else res := by
  obtain ⟨b0, rest0, hb⟩ := utf8Bytes_cons c
  obtain ⟨h43, h45, hr⟩ := utf8Bytes_sign c b0 rest0 hb
  obtain ⟨b1, rest1, hb1⟩ := utf8Bytes_cons c1
  have hs : b0 = 43 ∨ b0 = 45 := hc.imp h43.mpr h45.mpr
  have hr0 := hr hs
  subst hr0
  have n10 : ¬ ((1 : Int) < 0) := by decide
  have n4543 : ¬ ((45 : Nat) = 43) := by decide
  have m10 : ((-1 : Int) < 0) := by decide
  rcases hc with h | h
  · have e : b0 = 43 := h43.mpr h
    subst h
    subst e
    have hne : ¬ ('+' = '-') := by decide
    simp only [convertValueToBig, goBytes, ht, List.map_cons, List.flatten_cons, hb, hb1,
      List.cons_append, List.nil_append, if_true, hne, n10, if_false]
  · have e : b0 = 45 := h45.mpr h
    subst h
    subst e
    simp only [convertValueToBig, goBytes, ht, List.map_cons, List.flatten_cons, hb, hb1,
      List.cons_append, List.nil_append, if_true, n4543, m10, if_false]
theorem except_map_error_iff {ε α β : Type} (f : α → β) (x : Except ε α) :
    (∃ e, x.map f = .error e) ↔ ∃ e, x = .error e := by
  cases x with
  | error e => exact ⟨fun _ => ⟨e, rfl⟩, fun _ => ⟨e, rfl⟩⟩
  | ok a =>
    constructor
    · rintro ⟨e, he⟩; cases he
    · rintro ⟨e, he⟩; cases he

theorem specDigitValue_not_sign (c : Char) (d : Nat) (h : specDigitValue c = some d) :
    c ≠ '+' ∧ c ≠ '-' := by
  obtain ⟨_, h43, h45⟩ := specDigitValue_ascii c d h
  constructor
  · intro hc; apply h43; rw [hc]; rfl
  · intro hc; apply h45; rw [hc]; rfl

/-- C5: for every base `b` in 2..16 and every value string that, once trimmed and with one
optional leading sign removed, is a non-empty string of digits `d₁ … dₘ` below `b`,
`convertValueToBig` succeeds with `s * (d₁ * b^(m-1) + … + dₘ * b^0)`, `s` being `-1` for
the sign `-` and `1` otherwise; and `"ff"` in base 16 is 255, `"-10"` in base 2 is -2. -/
theorem convertValueToBig_positional_value :
    (∀ (value : String) (b : Int) (sign digits : List Char) (ds : List Nat),
      2 ≤ b → b ≤ 16 →
      (TrimSpace value).toList = sign ++ digits →
      (sign = [] ∨ sign = ['+'] ∨ sign = ['-']) →
      digits ≠ [] →
      digits.map specDigitValue = ds.map some →
      (∀ d ∈ ds, (d : Int) < b) →
      convertValueToBig value b =
        .ok ((if sign = ['-'] then -1 else 1) *
          ∑ i ∈ Finset.range ds.length, (ds.getD i 0 : Int) * b ^ (ds.length - 1 - i))) ∧
    convertValueToBig "ff" 16 = .ok 255 ∧
    convertValueToBig "-10" 2 = .ok (-2) := by
  refine ⟨?_, rfl, rfl⟩
  intro value b sign digits ds _ _ ht hsign hne hmap hlt
  cases digits with
  | nil => exact absurd rfl hne
  | cons c1 rest =>
    have hloop := convertLoop_digits value b (c1 :: rest) ds 0 hmap hlt
    rw [foldl_positional] at hloop
    rcases hsign with h | h | h
    · subst h
      cases ds with
      | nil => simp at hmap
      | cons d ds1 =>
        simp only [List.map_cons, List.cons.injEq] at hmap
        obtain ⟨hp, hm⟩ := specDigitValue_not_sign c1 d hmap.1
        rw [convertValueToBig_unsigned value b c1 rest ht hp hm, hloop]
        simp [Except.map]
    · subst h
      rw [convertValueToBig_signed value b '+' c1 rest ht (Or.inl rfl), hloop]
      simp [Except.map]
    · subst h
      rw [convertValueToBig_signed value b '-' c1 rest ht (Or.inr rfl), hloop]
      simp [Except.map]

theorem convertValueToBig_positional_value_witness :
    (2 : Int) ≤ 16 ∧ (16 : Int) ≤ 16 ∧
    (TrimSpace " -1A ").toList = ['-'] ++ ['1', 'A'] ∧
    ((['-'] : List Char) = [] ∨ (['-'] : List Char) = ['+'] ∨ (['-'] : List Char) = ['-']) ∧
    (['1', 'A'] : List Char) ≠ [] ∧
    (['1', 'A'] : List Char).map specDigitValue = ([1, 10] : List Nat).map some ∧
    (∀ d ∈ ([1, 10] : List Nat), (d : Int) < 16) ∧
    convertValueToBig " -1A " 16 =
      .ok ((if (['-'] : List Char) = ['-'] then -1 else 1) *
        ∑ i ∈ Finset.range ([1, 10] : List Nat).length,
          (([1, 10] : List Nat).getD i 0 : Int) * (16 : Int) ^ (([1, 10] : List Nat).length - 1 - i)) :=
  ⟨by decide, by decide, by rfl, by decide, by decide, by rfl, by decide,
    convertValueToBig_positional_value.1 " -1A " 16 ['-'] ['1', 'A'] [1, 10]
      (by decide) (by decide) (by rfl) (by decide) (by decide) (by rfl) (by decide)⟩

/-- C6: for every value string and every base in 2..16, `convertValueToBig` fails exactly
when the trimmed value is empty, or is empty once one leading sign is stripped, or
contains a character that is not a digit (`0`-`9`, `A`-`F`, `a`-`f`) of value below the
base; the empty string and `"g"` fail in base 16. -/
theorem convertValueToBig_fails_iff :
    (∀ (value : String) (b : Int), 2 ≤ b → b ≤ 16 →
      ((∃ e, convertValueToBig value b = .error e) ↔
        ((TrimSpace value).toList = [] ∨ specStripSign (TrimSpace value).toList = [] ∨
          ∃ c ∈ specStripSign (TrimSpace value).toList,
            ¬ ∃ d : Nat, specDigitValue c = some d ∧ (d : Int) < b))) ∧
    convertValueToBig "" 16 = .error .emptyValue ∧
    convertValueToBig "g" 16 = .error (.invalidCharacter 103 "g") := by
  refine ⟨?_, rfl, rfl⟩
  intro value b _ _
  cases ht : (TrimSpace value).toList with
  | nil =>
    rw [convertValueToBig_empty value b ht]
    exact ⟨fun _ => Or.inl rfl, fun _ => ⟨_, rfl⟩⟩
  | cons c rest =>
    by_cases hc : c = '+' ∨ c = '-'
    · cases rest with
      | nil =>
        rw [convertValueToBig_sign_only value b c ht hc]
        refine ⟨fun _ => Or.inr (Or.inl ?_), fun _ => ⟨_, rfl⟩⟩
        simp [specStripSign, hc]
      | cons c1 rest1 =>
        have hs : specStripSign (c :: c1 :: rest1) = c1 :: rest1 := by
          simp [specStripSign, hc]
        rw [convertValueToBig_signed value b c c1 rest1 ht hc, except_map_error_iff,
          convertLoop_error_iff, hs]
        simp
    · have hs : specStripSign (c :: rest) = c :: rest := by
        simp [specStripSign, hc]
      have hp : c ≠ '+' := fun h => hc (Or.inl h)
      have hm : c ≠ '-' := fun h => hc (Or.inr h)
      rw [convertValueToBig_unsigned value b c rest ht hp hm, except_map_error_iff,
        convertLoop_error_iff, hs]
      simp

theorem convertValueToBig_fails_iff_witness :
    (2 : Int) ≤ 7 ∧ (7 : Int) ≤ 16 ∧
    ((∃ e, convertValueToBig " +18" 7 = .error e) ↔
      ((TrimSpace " +18").toList = [] ∨ specStripSign (TrimSpace " +18").toList = [] ∨
        ∃ c ∈ specStripSign (TrimSpace " +18").toList,
          ¬ ∃ d : Nat, specDigitValue c = some d ∧ (d : Int) < 7)) :=
  ⟨by decide, by decide, convertValueToBig_fails_iff.1 " +18" 7 (by decide) (by decide)⟩

/-! ## Facts about the numeric bubble sort -/

theorem cons_set_perm {α : Type} (a b : α) :
    ∀ (xs : List α) (j : Nat), xs[j]? = some b → (b :: xs.set j a).Perm (a :: xs) := by
  intro xs
  induction xs with
  | nil => intro j h; simp at h
  | cons y t ih =>
    intro j h
    cases j with
    | zero =>
      simp only [List.getElem?_cons_zero, Option.some.injEq] at h
      subst h
      exact List.Perm.swap _ _ _
    | succ j =>
      simp only [List.getElem?_cons_succ] at h
      rw [List.set_cons_succ]
      exact ((List.Perm.swap y b _).trans ((ih j h).cons y)).trans (List.Perm.swap a y t)

theorem set_set_perm_of_getElem_some {α : Type} (a b : α) :
    ∀ (xs : List α) (i j : Nat), xs[i]? = some a → xs[j]? = some b →
      ((xs.set i b).set j a).Perm xs := by
  intro xs
  induction xs with
  | nil => intro i j h; simp at h
  | cons x t ih =>
    intro i j hi hj
    cases i with
    | zero =>
      simp only [List.getElem?_cons_zero, Option.some.injEq] at hi
      subst hi
      cases j with
      | zero =>
        simp only [List.getElem?_cons_zero, Option.some.injEq] at hj
        subst hj
        simp
      | succ j =>
        simp only [List.getElem?_cons_succ] at hj
        simp only [List.set_cons_zero, List.set_cons_succ]
        exact cons_set_perm x b t j hj
    | succ i =>
      simp only [List.getElem?_cons_succ] at hi
      cases j with
      | zero =>
        simp only [List.getElem?_cons_zero, Option.some.injEq] at hj
        subst hj
        simp only [List.set_cons_zero, List.set_cons_succ]
        exact cons_set_perm x a t i hi
      | succ j =>
        simp only [List.getElem?_cons_succ] at hj
        simp only [List.set_cons_succ]
        exact (ih i j hi hj).cons x

theorem swapAt_perm {α : Type} (xs : List α) (i j : Nat) : (swapAt xs i j).Perm xs := by
  unfold swapAt
  split
  · next a b ha hb => exact set_set_perm_of_getElem_some a b xs i j ha hb
  · exact List.Perm.refl _

theorem swapAt_length {α : Type} (xs : List α) (i j : Nat) :
    (swapAt xs i j).length = xs.length :=
  (swapAt_perm xs i j).length_eq

theorem swapAt_map {α β : Type} (f : α → β) (xs : List α) (i j : Nat) :
    (swapAt xs i j).map f = swapAt (xs.map f) i j := by
  unfold swapAt
  cases hi : xs[i]? with
  | none => simp [hi]
  | some a =>
    cases hj : xs[j]? with
    | none => simp [hi, hj]
    | some b => simp [hi, hj, List.map_set]

theorem swapAt_getD (xs : List Int) (i j p : Nat) (hi : i < xs.length) (hj : j < xs.length) :
    (swapAt xs i j).getD p 0 =
      if p = j then xs.getD i 0 else if p = i then xs.getD j 0 else xs.getD p 0 := by
  unfold swapAt
  rw [List.getElem?_eq_getElem hi, List.getElem?_eq_getElem hj]
  simp only [getD_set_zero, List.length_set, List.getD_eq_getElem _ _ hi,
    List.getD_eq_getElem _ _ hj]
  by_cases h1 : p = j
  · subst h1; simp [hj]
  · by_cases h2 : p = i
    · subst h2
      have : ¬ j = p := fun h => h1 h.symm
      simp [hi, this, h1]
    · have a1 : ¬ j = p := fun h => h1 h.symm
      have a2 : ¬ i = p := fun h => h2 h.symm
      simp [h1, h2, a1, a2]
theorem sortStep_lengths (i j : Nat) (st : List Int × List String) :
    (sortStep i j st).1.length = st.1.length ∧ (sortStep i j st).2.length = st.2.length := by
  unfold sortStep
  split
  · exact ⟨swapAt_length _ _ _, swapAt_length _ _ _⟩
  · exact ⟨rfl, rfl⟩

theorem sortStep_perm (i j : Nat) (st : List Int × List String) :
    (sortStep i j st).2.Perm st.2 := by
  unfold sortStep
  split
  · exact swapAt_perm _ _ _
  · exact List.Perm.refl _

theorem sortStep_map (i j : Nat) (st : List Int × List String)
    (h : st.1 = st.2.map keyInt) : (sortStep i j st).1 = (sortStep i j st).2.map keyInt := by
  unfold sortStep
  split
  · simp only [swapAt_map, ← h]
  · exact h

theorem sortInner_basic (i : Nat) :
    ∀ (c j : Nat) (st : List Int × List String),
      (sortInner i j c st).1.length = st.1.length ∧
      (sortInner i j c st).2.length = st.2.length ∧
      (sortInner i j c st).2.Perm st.2 ∧
      (st.1 = st.2.map keyInt → (sortInner i j c st).1 = (sortInner i j c st).2.map keyInt) := by
  intro c
  induction c with
  | zero => intro j st; exact ⟨rfl, rfl, List.Perm.refl _, fun h => h⟩
  | succ c ih =>
    intro j st
    obtain ⟨h1, h2, h3, h4⟩ := ih (j + 1) (sortStep i j st)
    obtain ⟨l1, l2⟩ := sortStep_lengths i j st
    rw [sortInner]
    exact ⟨h1.trans l1, h2.trans l2, h3.trans (sortStep_perm i j st),
      fun h => h4 (sortStep_map i j st h)⟩

theorem sortOuter_basic :
    ∀ (c i : Nat) (st : List Int × List String),
      (sortOuter i c st).1.length = st.1.length ∧
      (sortOuter i c st).2.length = st.2.length ∧
      (sortOuter i c st).2.Perm st.2 ∧
      (st.1 = st.2.map keyInt → (sortOuter i c st).1 = (sortOuter i c st).2.map keyInt) := by
  intro c
  induction c with
  | zero => intro i st; exact ⟨rfl, rfl, List.Perm.refl _, fun h => h⟩
  | succ c ih =>
    intro i st
    obtain ⟨h1, h2, h3, h4⟩ := ih (i + 1) (sortInner i (i + 1) (st.2.length - (i + 1)) st)
    obtain ⟨l1, l2, l3, l4⟩ := sortInner_basic i (st.2.length - (i + 1)) (i + 1) st
    rw [sortOuter]
    exact ⟨h1.trans l1, h2.trans l2, h3.trans l3, fun h => h4 (l4 h)⟩

theorem sortStep_fst_getD (i j : Nat) (st : List Int × List String)
    (hi : i < st.1.length) (hj : j < st.1.length) (p : Nat) :
    (sortStep i j st).1.getD p 0 =
      if st.1.getD j 0 < st.1.getD i 0 then
        (if p = j then st.1.getD i 0 else if p = i then st.1.getD j 0 else st.1.getD p 0)
      else st.1.getD p 0 := by
  unfold sortStep
  split
  · exact swapAt_getD _ _ _ _ hi hj
  · rfl

theorem sortInner_inv (i : Nat) :
    ∀ (c j : Nat) (st : List Int × List String), i < j → j + c = st.1.length →
      (∀ p q, p < q → q < st.1.length → p < i → st.1.getD p 0 ≤ st.1.getD q 0) →
      (∀ p, i < p → p < j → st.1.getD i 0 ≤ st.1.getD p 0) →
      (∀ p q, p < q → q < st.1.length → p < i →
        (sortInner i j c st).1.getD p 0 ≤ (sortInner i j c st).1.getD q 0) ∧
      (∀ p, i < p → p < j + c →
        (sortInner i j c st).1.getD i 0 ≤ (sortInner i j c st).1.getD p 0) := by
  intro c
  induction c with
  | zero => intro j st _ _ h1 h2; exact ⟨h1, h2⟩
  | succ c ih =>
    intro j st hij hlen inv1 inv2
    have hjn : j < st.1.length := by omega
    have hin : i < st.1.length := by omega
    have key := sortStep_fst_getD i j st hin hjn
    obtain ⟨l1, _⟩ := sortStep_lengths i j st
    have inv1n : ∀ p q, p < q → q < (sortStep i j st).1.length → p < i →
        (sortStep i j st).1.getD p 0 ≤ (sortStep i j st).1.getD q 0 := by
      intro p q hpq hq hp
      rw [l1] at hq
      have A := inv1 p q hpq hq hp
      have B := inv1 p i hp hin hp
      have C := inv1 p j (by omega) hjn hp
      rw [key p, key q]
      split_ifs <;> omega
    have inv2n : ∀ p, i < p → p < j + 1 →
        (sortStep i j st).1.getD i 0 ≤ (sortStep i j st).1.getD p 0 := by
      intro p hip hpj
      rw [key i, key p]
      by_cases hp : p = j
      · subst hp
        split_ifs <;> omega
      · have D := inv2 p hip (by omega)
        split_ifs <;> omega
    have r := ih (j + 1) (sortStep i j st) (by omega) (by omega) inv1n inv2n
    rw [l1] at r
    rw [sortInner]
    refine ⟨r.1, ?_⟩
    intro p hp1 hp2
    exact r.2 p hp1 (by omega)

theorem sortOuter_inv :
    ∀ (c i : Nat) (st : List Int × List String), i + c = st.1.length →
      st.2.length = st.1.length →
      (∀ p q, p < q → q < st.1.length → p < i → st.1.getD p 0 ≤ st.1.getD q 0) →
      ∀ p q, p < q → q < st.1.length →
        (sortOuter i c st).1.getD p 0 ≤ (sortOuter i c st).1.getD q 0 := by
  intro c
  induction c with
  | zero =>
    intro i st hlen _ inv p q hpq hq
    exact inv p q hpq hq (by omega)
  | succ c ih =>
    intro i st hlen h2 inv p q hpq hq
    obtain ⟨l1, l2, _, _⟩ := sortInner_basic i (st.2.length - (i + 1)) (i + 1) st
    obtain ⟨r1, r2⟩ := sortInner_inv i (st.2.length - (i + 1)) (i + 1) st (by omega)
      (by omega) inv (by intro p h1 h2; omega)
    rw [sortOuter]
    have := ih (i + 1) (sortInner i (i + 1) (st.2.length - (i + 1)) st) (by omega) (by omega)
      (by
        intro p q hpq hq hp
        rw [l1] at hq
        by_cases hpi : p < i
        · exact r1 p q hpq hq hpi
        · have e : p = i := by omega
          subst e
          exact r2 q hpq (by omega))
      p q hpq (by omega)
    exact this

theorem sortKeys_sorted (keys : List String) : (sortKeys keys).1.Sorted (· ≤ ·) := by
  have hlen := (sortOuter_basic keys.length 0 (keys.map keyInt, keys)).1
  have h := sortOuter_inv keys.length 0 (keys.map keyInt, keys) (by simp) (by simp)
    (by intro p q _ _ hp; omega)
  unfold sortKeys
  rw [List.Sorted, List.pairwise_iff_getElem]
  intro a b ha hb hab
  have := h a b hab (by rw [← hlen]; exact hb)
  rwa [List.getD_eq_getElem _ _ ha, List.getD_eq_getElem _ _ hb] at this

theorem perm_three_cases (keys : List String) (h : keys.Perm ["10", "2", "1"]) :
    keys = ["10", "2", "1"] ∨ keys = ["10", "1", "2"] ∨ keys = ["2", "10", "1"] ∨
    keys = ["2", "1", "10"] ∨ keys = ["1", "10", "2"] ∨ keys = ["1", "2", "10"] := by
  have hl := h.length_eq
  have hnd : keys.Nodup := h.nodup_iff.mpr (by decide)
  match keys, hl, h, hnd with
  | [a, b, c], _, h, hnd =>
    have ha : a ∈ ["10", "2", "1"] := h.subset (by simp)
    have hb : b ∈ ["10", "2", "1"] := h.subset (by simp)
    have hc : c ∈ ["10", "2", "1"] := h.subset (by simp)
    simp only [List.mem_cons, List.mem_singleton, List.not_mem_nil, or_false] at ha hb hc
    simp only [List.nodup_cons, List.mem_cons, List.mem_singleton, List.not_mem_nil,
      or_false, not_or, not_false_eq_true, List.nodup_nil, and_true] at hnd
    obtain ⟨⟨hab, hac⟩, hbc⟩ := hnd
    rcases ha with rfl | rfl | rfl <;> rcases hb with rfl | rfl | rfl <;>
      rcases hc with rfl | rfl | rfl <;> simp at hab hac hbc ⊢

set_option maxRecDepth 100000 in
/-- C7: for every list of entry keys, after the sorting loop the key list is a permutation
of the original one, the parallel list of numeric values is in non-decreasing order, and
its position `i` still holds the numeric value (`parseDecimalToInt` of the key, `0` when
that fails) of the key at position `i`; the keys `"10"`, `"2"`, `"1"`, in whatever
initial order, end as `"1"`, `"2"`, `"10"`. -/
theorem sortKeys_permutation_sorted_aligned :
    (∀ keys : List String,
      (sortKeys keys).2.Perm keys ∧
      (sortKeys keys).1.Sorted (· ≤ ·) ∧
      (sortKeys keys).1 = (sortKeys keys).2.map keyInt) ∧
    (∀ keys : List String, keys.Perm ["10", "2", "1"] →
      (sortKeys keys).2 = ["1", "2", "10"]) := by
  constructor
  · intro keys
    obtain ⟨_, _, hp, hm⟩ := sortOuter_basic keys.length 0 (keys.map keyInt, keys)
    exact ⟨hp, sortKeys_sorted keys, hm rfl⟩
  · intro keys h
    rcases perm_three_cases keys h with rfl | rfl | rfl | rfl | rfl | rfl <;> decide

set_option maxRecDepth 100000 in
theorem sortKeys_permutation_sorted_aligned_witness :
    (["2", "10", "1"] : List String).Perm ["10", "2", "1"] ∧
    (sortKeys ["2", "10", "1"]).2 = ["1", "2", "10"] :=
  ⟨by decide, sortKeys_permutation_sorted_aligned.2 ["2", "10", "1"] (by decide)⟩

/-! ## Facts about validation and the pipeline -/

/-- One turn of the loop over the keys appends one root and at most one problem, and the
problem is a per-entry one. -/
theorem entryStep_append (rootMap : List (String × RootEntry)) (st : List Problem × List Int)
    (key : String) :
    ∃ (ps : List Problem) (r : Int),
      entryStep rootMap st key = (st.1 ++ ps, st.2 ++ [r]) ∧
      (∀ p ∈ ps, ∀ a b : Int, p ≠ Problem.countMismatch a b ∧ p ≠ Problem.kGreaterThanN a b) ∧
      (ps = [] → ∃ base : Int,
        parseDecimalToInt (TrimSpace (mapIndex rootMap key).Base) = .ok base ∧
        2 ≤ base ∧ base ≤ 16 ∧
        convertValueToBig (mapIndex rootMap key).Value base = .ok r) := by
  have hsingle : ∀ q : Problem,
      (∀ a b : Int, q ≠ Problem.countMismatch a b ∧ q ≠ Problem.kGreaterThanN a b) →
      (∀ p ∈ [q], ∀ a b : Int,
        p ≠ Problem.countMismatch a b ∧ p ≠ Problem.kGreaterThanN a b) := by
    intro q hq p hp
    rw [List.mem_singleton] at hp
    subst hp
    exact hq
  unfold entryStep
  simp only []
  split
  · next perr hb =>
    refine ⟨[_], 0, rfl, hsingle _ (fun a b => ⟨by simp, by simp⟩), ?_⟩
    intro h; cases h
  · next base hb =>
    split
    · next hr =>
      refine ⟨[_], 0, rfl, hsingle _ (fun a b => ⟨by simp, by simp⟩), ?_⟩
      intro h; cases h
    · next hr =>
      split
      · next verr hv =>
        refine ⟨[_], 0, rfl, hsingle _ (fun a b => ⟨by simp, by simp⟩), ?_⟩
        intro h; cases h
      · next valBig hv =>
        refine ⟨[], valBig, by simp, ?_, ?_⟩
        · intro p hp; cases hp
        · intro _
          exact ⟨base, hb, by omega, by omega, hv⟩

theorem foldl_entryStep (rootMap : List (String × RootEntry)) :
    ∀ (keys : List String) (st : List Problem × List Int),
      ∃ (ps : List Problem) (rs : List Int),
        keys.foldl (entryStep rootMap) st = (st.1 ++ ps, st.2 ++ rs) ∧
        rs.length = keys.length ∧
        (∀ p ∈ ps, ∀ a b : Int,
          p ≠ Problem.countMismatch a b ∧ p ≠ Problem.kGreaterThanN a b) ∧
        (ps = [] → ∀ i : Nat, i < keys.length → ∃ base : Int,
          parseDecimalToInt (TrimSpace (mapIndex rootMap (keys.getD i "")).Base) = .ok base ∧
          2 ≤ base ∧ base ≤ 16 ∧
          convertValueToBig (mapIndex rootMap (keys.getD i "")).Value base
            = .ok (rs.getD i 0)) := by
  intro keys
  induction keys with
  | nil =>
    intro st
    refine ⟨[], [], by simp, rfl, ?_, ?_⟩
    · intro p hp; cases hp
    · intro _ i hi; cases hi
  | cons key keys ih =>
    intro st
    obtain ⟨ps1, r, h1, h2, h3⟩ := entryStep_append rootMap st key
    obtain ⟨ps2, rs, g1, g2, g3, g4⟩ := ih (entryStep rootMap st key)
    refine ⟨ps1 ++ ps2, r :: rs, ?_, ?_, ?_, ?_⟩
    · rw [List.foldl_cons, g1, h1]
      simp
    · simp [g2]
    · intro p hp
      rcases List.mem_append.mp hp with hp | hp
      · exact h2 p hp
      · exact g3 p hp
    · intro hnil i hi
      obtain ⟨e1, e2⟩ := List.append_eq_nil.mp hnil
      cases i with
      | zero => simpa using h3 e1
      | succ i =>
        have := g4 e2 i (by simpa using hi)
        simpa using this
theorem sortKeys_length (keys : List String) : (sortKeys keys).2.length = keys.length :=
  (sortOuter_basic keys.length 0 (keys.map keyInt, keys)).2.1

theorem validate_shape (ds : Dataset) :
    ∃ (ps : List Problem) (rs : List Int),
      validate ds = (structuralProblems ds ++ ps, rs) ∧
      rs.length = ds.rootMap.length ∧
      (∀ p ∈ ps, ∀ a b : Int,
        p ≠ Problem.countMismatch a b ∧ p ≠ Problem.kGreaterThanN a b) ∧
      (ps = [] → ∀ i : Nat, i < ds.rootMap.length → ∃ base : Int,
        parseDecimalToInt (TrimSpace (mapIndex ds.rootMap
          ((sortKeys (ds.rootMap.map Prod.fst)).2.getD i "")).Base) = .ok base ∧
        2 ≤ base ∧ base ≤ 16 ∧
        convertValueToBig (mapIndex ds.rootMap
          ((sortKeys (ds.rootMap.map Prod.fst)).2.getD i "")).Value base
            = .ok (rs.getD i 0)) := by
  obtain ⟨ps, rs, h1, h2, h3, h4⟩ :=
    foldl_entryStep ds.rootMap (sortKeys (ds.rootMap.map Prod.fst)).2 (structuralProblems ds, [])
  have hl : (sortKeys (ds.rootMap.map Prod.fst)).2.length = ds.rootMap.length := by
    rw [sortKeys_length, List.length_map]
  refine ⟨ps, rs, ?_, by rw [h2, hl], h3, ?_⟩
  · rw [validate, h1]
    simp
  · intro hnil i hi
    exact h4 hnil i (by rw [hl]; exact hi)

theorem pipeline_of_problems (ds : Dataset) (h : (validate ds).1 ≠ []) :
    pipeline ds = .wrongDataset (validate ds).1 := by
  unfold pipeline
  rcases hv : validate ds with ⟨ps, rs⟩
  rw [hv] at h
  have hpos : ps.length > 0 := List.length_pos.mpr h
  simp only [hpos, if_true]

theorem selectLoop_eq (convertedRoots : List Int) :
    ∀ (c i : Nat) (selected : List Int), i + c ≤ convertedRoots.length →
      selectLoop convertedRoots i c selected =
        .ok (selected ++ (convertedRoots.drop i).take c) := by
  intro c
  induction c with
  | zero => intro i selected _; simp [selectLoop]
  | succ c ih =>
    intro i selected h
    have hi : i < convertedRoots.length := by omega
    rw [selectLoop, List.getElem?_eq_getElem hi]
    simp only
    rw [ih (i + 1) _ (by omega), List.drop_eq_getElem_cons hi, List.take_succ_cons]
    simp

theorem structuralProblems_eq_nil (ds : Dataset) (h : structuralProblems ds = []) :
    (ds.rootMap.length : Int) = ds.n ∧ ds.k ≤ ds.n := by
  unfold structuralProblems at h
  by_cases h1 : (ds.rootMap.length : Int) ≠ ds.n
  · by_cases h2 : ds.k > ds.n
    · simp [h1, h2] at h
    · simp [h1, h2] at h
  · by_cases h2 : ds.k > ds.n
    · simp [h1, h2] at h
    · exact ⟨not_not.mp h1, not_lt.mp h2⟩
/-- C8: for every dataset whose number of entries differs from the declared `n`, the
problem list is non-empty, its first element is the count-mismatch problem citing the
entry count and `n`, and the run ends with the problem report, not with coefficients. -/
theorem count_mismatch_is_first_problem (ds : Dataset)
    (h : (ds.rootMap.length : Int) ≠ ds.n) :
    (∃ rest, (validate ds).1 = Problem.countMismatch ds.rootMap.length ds.n :: rest) ∧
    pipeline ds = .wrongDataset (validate ds).1 ∧
    ∀ line, pipeline ds ≠ .coefficients line := by
  obtain ⟨ps, rs, hv, _, _, _⟩ := validate_shape ds
  have hs : ∃ tail, structuralProblems ds =
      Problem.countMismatch ds.rootMap.length ds.n :: tail := by
    unfold structuralProblems
    by_cases h2 : ds.k > ds.n
    · exact ⟨[Problem.kGreaterThanN ds.k ds.n], by simp [h, h2]⟩
    · exact ⟨[], by simp [h, h2]⟩
  obtain ⟨tail, hs⟩ := hs
  have hfst : (validate ds).1 = Problem.countMismatch ds.rootMap.length ds.n :: (tail ++ ps) := by
    rw [hv, hs]
    rfl
  have hne : (validate ds).1 ≠ [] := by rw [hfst]; simp
  have hp := pipeline_of_problems ds hne
  refine ⟨⟨_, hfst⟩, hp, ?_⟩
  intro line
  rw [hp]
  simp

theorem count_mismatch_is_first_problem_witness :
    (((Dataset.mk [("1", ⟨"10", "4"⟩), ("2", ⟨"10", "7"⟩)] 3 2).rootMap.length : Int)
      ≠ (Dataset.mk [("1", ⟨"10", "4"⟩), ("2", ⟨"10", "7"⟩)] 3 2).n) ∧
    ((∃ rest, (validate (Dataset.mk [("1", ⟨"10", "4"⟩), ("2", ⟨"10", "7"⟩)] 3 2)).1 =
      Problem.countMismatch
        (Dataset.mk [("1", ⟨"10", "4"⟩), ("2", ⟨"10", "7"⟩)] 3 2).rootMap.length
        (Dataset.mk [("1", ⟨"10", "4"⟩), ("2", ⟨"10", "7"⟩)] 3 2).n :: rest) ∧
    pipeline (Dataset.mk [("1", ⟨"10", "4"⟩), ("2", ⟨"10", "7"⟩)] 3 2) =
      .wrongDataset (validate (Dataset.mk [("1", ⟨"10", "4"⟩), ("2", ⟨"10", "7"⟩)] 3 2)).1 ∧
    ∀ line, pipeline (Dataset.mk [("1", ⟨"10", "4"⟩), ("2", ⟨"10", "7"⟩)] 3 2)
      ≠ .coefficients line) :=
  ⟨by decide,
    count_mismatch_is_first_problem (Dataset.mk [("1", ⟨"10", "4"⟩), ("2", ⟨"10", "7"⟩)] 3 2)
      (by decide)⟩

/-- C9: for every dataset with `k > n` the problem list contains exactly one problem
stating that `k` is greater than `n`, it cites both values, and the run ends with the
problem report, not with coefficients; when `k <= n` no such problem is recorded. -/
theorem k_greater_than_n_reported_once (ds : Dataset) :
    (ds.k > ds.n →
      (validate ds).1.count (Problem.kGreaterThanN ds.k ds.n) = 1 ∧
      (∀ a b, Problem.kGreaterThanN a b ∈ (validate ds).1 → a = ds.k ∧ b = ds.n) ∧
      pipeline ds = .wrongDataset (validate ds).1 ∧
      ∀ line, pipeline ds ≠ .coefficients line) ∧
    (ds.k ≤ ds.n → ∀ a b, Problem.kGreaterThanN a b ∉ (validate ds).1) := by
  obtain ⟨ps, rs, hv, _, hps, _⟩ := validate_shape ds
  have hfst : (validate ds).1 = structuralProblems ds ++ ps := by rw [hv]
  have hnot : ∀ a b, Problem.kGreaterThanN a b ∉ ps := fun a b hm => (hps _ hm a b).2 rfl
  constructor
  · intro hk
    have hs : ∃ front, structuralProblems ds = front ++ [Problem.kGreaterThanN ds.k ds.n] ∧
        ∀ p ∈ front, ∀ a b, p ≠ Problem.kGreaterThanN a b := by
      unfold structuralProblems
      by_cases h1 : (ds.rootMap.length : Int) ≠ ds.n
      · refine ⟨[Problem.countMismatch ds.rootMap.length ds.n], by simp [h1, hk], ?_⟩
        intro p hp a b
        rw [List.mem_singleton] at hp
        subst hp
        simp
      · exact ⟨[], by simp [h1, hk], by intro p hp; cases hp⟩
    obtain ⟨front, hs, hfront⟩ := hs
    have hne : (validate ds).1 ≠ [] := by rw [hfst, hs]; simp
    have hp := pipeline_of_problems ds hne
    refine ⟨?_, ?_, hp, ?_⟩
    · rw [hfst, hs, List.count_append, List.count_append,
        List.count_eq_zero.mpr (hnot _ _),
        List.count_eq_zero.mpr (fun hm => hfront _ hm _ _ rfl)]
      simp
    · intro a b hm
      rw [hfst, hs] at hm
      rcases List.mem_append.mp hm with hm | hm
      · rcases List.mem_append.mp hm with hm | hm
        · exact absurd rfl (hfront _ hm a b)
        · rw [List.mem_singleton] at hm
          injection hm with e1 e2
          exact ⟨e1, e2⟩
      · exact absurd hm (hnot a b)
    · intro line
      rw [hp]
      simp
  · intro hk a b hm
    rw [hfst] at hm
    rcases List.mem_append.mp hm with hm | hm
    · unfold structuralProblems at hm
      have hk2 : ¬ ds.k > ds.n := not_lt.mpr hk
      by_cases h1 : (ds.rootMap.length : Int) ≠ ds.n
      · simp [h1, hk2] at hm
      · simp [h1, hk2] at hm
    · exact hnot a b hm

theorem k_greater_than_n_reported_once_witness :
    (Dataset.mk [("1", ⟨"10", "4"⟩), ("2", ⟨"10", "7"⟩), ("3", ⟨"10", "12"⟩)] 3 5).k >
      (Dataset.mk [("1", ⟨"10", "4"⟩), ("2", ⟨"10", "7"⟩), ("3", ⟨"10", "12"⟩)] 3 5).n ∧
    (validate (Dataset.mk [("1", ⟨"10", "4"⟩), ("2", ⟨"10", "7"⟩), ("3", ⟨"10", "12"⟩)] 3 5)).1.count
      (Problem.kGreaterThanN 5 3) = 1 :=
  ⟨by decide,
    ((k_greater_than_n_reported_once
      (Dataset.mk [("1", ⟨"10", "4"⟩), ("2", ⟨"10", "7"⟩), ("3", ⟨"10", "12"⟩)] 3 5)).1
        (by decide)).1⟩

set_option maxRecDepth 100000 in
/-- C10 (what the code does): with `n = 1`, `k = -1` and the single well-formed entry
`1:(base 10, value 4)` validation records no problem, and the run ends in the run-time
panic of `make` with a negative capacity, not in a problem report. -/
theorem negative_k_on_valid_dataset_panics :
    (validate (Dataset.mk [("1", ⟨"10", "4"⟩)] 1 (-1))).1 = [] ∧
    pipeline (Dataset.mk [("1", ⟨"10", "4"⟩)] 1 (-1)) =
      .panicked .makesliceCapOutOfRange := by
  decide
theorem perm_three_entries (rootMap : List (String × RootEntry))
    (h : rootMap.Perm [("1", ⟨"10", "4"⟩), ("2", ⟨"10", "7"⟩), ("3", ⟨"10", "12"⟩)]) :
    rootMap = [("1", ⟨"10", "4"⟩), ("2", ⟨"10", "7"⟩), ("3", ⟨"10", "12"⟩)] ∨
    rootMap = [("1", ⟨"10", "4"⟩), ("3", ⟨"10", "12"⟩), ("2", ⟨"10", "7"⟩)] ∨
    rootMap = [("2", ⟨"10", "7"⟩), ("1", ⟨"10", "4"⟩), ("3", ⟨"10", "12"⟩)] ∨
    rootMap = [("2", ⟨"10", "7"⟩), ("3", ⟨"10", "12"⟩), ("1", ⟨"10", "4"⟩)] ∨
    rootMap = [("3", ⟨"10", "12"⟩), ("1", ⟨"10", "4"⟩), ("2", ⟨"10", "7"⟩)] ∨
    rootMap = [("3", ⟨"10", "12"⟩), ("2", ⟨"10", "7"⟩), ("1", ⟨"10", "4"⟩)] := by
  have hl := h.length_eq
  have hnd : rootMap.Nodup := h.nodup_iff.mpr (by decide)
  match rootMap, hl, h, hnd with
  | [a, b, c], _, h, hnd =>
    have ha : a ∈ [("1", (⟨"10", "4"⟩ : RootEntry)), ("2", ⟨"10", "7"⟩), ("3", ⟨"10", "12"⟩)] :=
      h.subset (by simp)
    have hb : b ∈ [("1", (⟨"10", "4"⟩ : RootEntry)), ("2", ⟨"10", "7"⟩), ("3", ⟨"10", "12"⟩)] :=
      h.subset (by simp)
    have hc : c ∈ [("1", (⟨"10", "4"⟩ : RootEntry)), ("2", ⟨"10", "7"⟩), ("3", ⟨"10", "12"⟩)] :=
      h.subset (by simp)
    simp only [List.mem_cons, List.mem_singleton, List.not_mem_nil, or_false] at ha hb hc
    simp only [List.nodup_cons, List.mem_cons, List.mem_singleton, List.not_mem_nil,
      or_false, not_or, not_false_eq_true, List.nodup_nil, and_true] at hnd
    obtain ⟨⟨hab, hac⟩, hbc⟩ := hnd
    rcases ha with rfl | rfl | rfl <;> rcases hb with rfl | rfl | rfl <;>
      rcases hc with rfl | rfl | rfl <;> simp at hab hac hbc ⊢

/-! ## Further facts about the expansion loop -/

theorem reverse_getD_zero (l : List Int) (i : Nat) (h : i < l.length) :
    l.reverse.getD i 0 = l.getD (l.length - 1 - i) 0 := by
  rw [List.getD_eq_getElem _ _ (by rw [List.length_reverse]; exact h), List.getElem_reverse,
    List.getD_eq_getElem _ _ (by omega)]

theorem expandStep_coeff (coeffs : List Int) (r : Int) (q : Polynomial Int)
    (h : ∀ j : Nat, coeffs.getD j 0 = q.coeff j) (j : Nat) :
    (expandStep coeffs r).getD j 0 = (q * (Polynomial.X - Polynomial.C r)).coeff j := by
  rw [expandStep_getD]
  cases j with
  | zero =>
    rw [Polynomial.mul_coeff_zero, ← h 0]
    simp
  | succ i =>
    rw [Polynomial.coeff_mul_X_sub_C, ← h i, ← h (i + 1)]
    simp

/-- C20: the expansion does not depend on the order of the roots: for every sequence of
integer roots and every permutation of it the expansion loop leaves the same `coeffs`. -/
theorem expand_eq_of_perm (roots permuted : List Int) (h : permuted.Perm roots) :
    expand permuted = expand roots := by
  have hl : permuted.length = roots.length := h.length_eq
  apply List.ext_getElem
  · rw [expand_length, expand_length, hl]
  · intro n h1 h2
    have e1 := expand_getD permuted n
    have e2 := expand_getD roots n
    rw [List.getD_eq_getElem _ _ h1] at e1
    rw [List.getD_eq_getElem _ _ h2] at e2
    rw [e1, e2, (h.map fun r => (Polynomial.X - Polynomial.C r : Polynomial Int)).prod_eq]

theorem expand_eq_of_perm_witness :
    ([7, 4, 4, -3] : List Int).Perm [4, -3, 7, 4] ∧
    expand [7, 4, 4, -3] = expand [4, -3, 7, 4] :=
  ⟨by decide, expand_eq_of_perm [4, -3, 7, 4] [7, 4, 4, -3] (by decide)⟩

/-- C15 (the claim as stated fails): with the running coefficients `1, -4` written
highest degree first (the loop holds them as `-4, 1`) and the root `7`, the new
coefficients highest degree first are `1, -11, 28`, not the values `c_(i-1) - r * c_i`
computed from the highest-first sequence. -/
theorem spec_recurrence_fails_highest_first :
    ¬ (∀ i : Nat, i ≤ 2 →
      (expandStep [-4, 1] 7).reverse.getD i 0 =
        (if 1 ≤ i then ([-4, 1] : List Int).reverse.getD (i - 1) 0 else 0)
          - 7 * ([-4, 1] : List Int).reverse.getD i 0) := by
  intro h
  have h0 := h 0 (by decide)
  revert h0
  decide

/-- C15 (amended): each expansion step multiplies the running polynomial by `X - r`; with
the current coefficients `c_0 .. c_m` indexed by degree, lowest degree first as the loop
holds them, the new coefficients are `c'_i = c_(i-1) - r * c_i` for every `i`, out-of-range
entries read as `0`, and there are `m + 2` of them; written highest degree first, as
they are emitted, the recurrence reads `c'_i = c_i - r * c_(i-1)`. -/
theorem expandStep_recurrence (coeffs : List Int) (r : Int) :
    (expandStep coeffs r).length = coeffs.length + 1 ∧
    (∀ i : Nat, (expandStep coeffs r).getD i 0 =
      (if 1 ≤ i then coeffs.getD (i - 1) 0 else 0) - r * coeffs.getD i 0) ∧
    (∀ i : Nat, (expandStep coeffs r).reverse.getD i 0 =
      coeffs.reverse.getD i 0 - r * (if 1 ≤ i then coeffs.reverse.getD (i - 1) 0 else 0)) ∧
    (∀ q : Polynomial Int, (∀ j : Nat, coeffs.getD j 0 = q.coeff j) →
      ∀ j : Nat, (expandStep coeffs r).getD j 0 =
        (q * (Polynomial.X - Polynomial.C r)).coeff j) := by
  refine ⟨expandStep_length coeffs r, ?_, ?_, fun q h j => expandStep_coeff coeffs r q h j⟩
  · intro i
    rw [expandStep_getD, mul_comm]
  · intro i
    by_cases hi : i < coeffs.length + 1
    · rw [reverse_getD_zero _ _ (by rw [expandStep_length]; exact hi), expandStep_length,
        expandStep_getD]
      by_cases h0 : i = 0
      · subst h0
        have hz : coeffs.getD (coeffs.length + 1 - 1 - 0) 0 = 0 :=
          List.getD_eq_default _ _ (by omega)
        rw [hz]
        by_cases hl : 1 ≤ coeffs.length + 1 - 1 - 0
        · rw [if_pos hl, reverse_getD_zero _ _ (by omega)]
          simp
        · have hnil : coeffs.length = 0 := by omega
          rw [if_neg hl, List.getD_eq_default _ _ (by rw [List.length_reverse]; omega)]
          simp
      · have h1 : 1 ≤ i := by omega
        rw [if_pos h1, reverse_getD_zero _ _ (by omega : i - 1 < coeffs.length)]
        have e1 : coeffs.length + 1 - 1 - i = coeffs.length - 1 - (i - 1) := by omega
        by_cases hl : i < coeffs.length
        · rw [if_pos (by omega), reverse_getD_zero _ _ hl, e1]
          have e2 : coeffs.length - 1 - (i - 1) - 1 = coeffs.length - 1 - i := by omega
          rw [e2]
          ring
        · rw [if_neg (by omega), List.getD_eq_default _ _
            (by rw [List.length_reverse]; omega : coeffs.reverse.length ≤ i), e1]
          ring
    · have a1 : (expandStep coeffs r).reverse.getD i 0 = 0 :=
        List.getD_eq_default _ _ (by rw [List.length_reverse, expandStep_length]; omega)
      have a2 : coeffs.reverse.getD i 0 = 0 :=
        List.getD_eq_default _ _ (by rw [List.length_reverse]; omega)
      have a3 : coeffs.reverse.getD (i - 1) 0 = 0 :=
        List.getD_eq_default _ _ (by rw [List.length_reverse]; omega)
      rw [a1, a2, if_pos (by omega), a3]
      ring

/-! ## Further facts about validation and the pipeline -/

/-- The loop over the keys appends, key by key, the problem of the entry (if any) and
its root (the zero placeholder when there is a problem). -/
theorem foldl_entryStep_eq (rootMap : List (String × RootEntry)) :
    ∀ (keys : List String) (st : List Problem × List Int),
      keys.foldl (entryStep rootMap) st =
        (st.1 ++ keys.filterMap (fun key =>
          match parseDecimalToInt (TrimSpace (mapIndex rootMap key).Base) with
          | .error perr => some (Problem.invalidBase key (mapIndex rootMap key).Base perr)
          | .ok base =>
            if base < 2 ∨ base > 16 then some (Problem.unsupportedBase key base)
            else
              match convertValueToBig (mapIndex rootMap key).Value base with
              | .error verr =>
                some (Problem.invalidValue key base (mapIndex rootMap key).Value verr)
              | .ok _ => none),
         st.2 ++ keys.map (fun key =>
          match parseDecimalToInt (TrimSpace (mapIndex rootMap key).Base) with
          | .error _ => (0 : Int)
          | .ok base =>
            if base < 2 ∨ base > 16 then 0
            else
              match convertValueToBig (mapIndex rootMap key).Value base with
              | .error _ => 0
              | .ok valBig => valBig)) := by
  intro keys
  induction keys with
  | nil => intro st; simp
  | cons key keys ih =>
    intro st
    rw [List.foldl_cons, ih]
    unfold entryStep
    simp only []
    cases hb : parseDecimalToInt (TrimSpace (mapIndex rootMap key).Base) with
    | error perr => simp [List.filterMap_cons, hb]
    | ok base =>
      by_cases hr : base < 2 ∨ base > 16
      · simp [List.filterMap_cons, hb, hr]
      · cases hv : convertValueToBig (mapIndex rootMap key).Value base with
        | error verr => simp [List.filterMap_cons, hb, hr, hv]
        | ok valBig => simp [List.filterMap_cons, hb, hr, hv]
theorem structuralProblems_eq (ds : Dataset) :
    structuralProblems ds =
      (if (ds.rootMap.length : Int) ≠ ds.n then
        [Problem.countMismatch ds.rootMap.length ds.n] else []) ++
      (if ds.k > ds.n then [Problem.kGreaterThanN ds.k ds.n] else []) := by
  unfold structuralProblems
  by_cases h1 : (ds.rootMap.length : Int) ≠ ds.n
  · by_cases h2 : ds.k > ds.n
    · simp [h1, h2]
    · simp [h1, h2]
  · by_cases h2 : ds.k > ds.n
    · simp [h1, h2]
    · simp [h1, h2]

theorem sortKeys_perm_sorted (keys : List String) :
    (sortKeys keys).2.Perm keys ∧ ((sortKeys keys).2.map keyInt).Sorted (· ≤ ·) := by
  obtain ⟨_, _, hp, hm⟩ := sortOuter_basic keys.length 0 (keys.map keyInt, keys)
  have hm2 : (sortKeys keys).1 = (sortKeys keys).2.map keyInt := hm rfl
  exact ⟨hp, by rw [← hm2]; exact sortKeys_sorted keys⟩

theorem validate_snd_length (ds : Dataset) : (validate ds).2.length = ds.rootMap.length := by
  obtain ⟨ps, rs, hv, hlen, _, _⟩ := validate_shape ds
  rw [hv]
  exact hlen

theorem selectRoots_of_le (convertedRoots : List Int) (k : Int) (h0 : 0 ≤ k)
    (hk : k ≤ convertedRoots.length) :
    selectRoots convertedRoots k = .ok (convertedRoots.take k.toNat) := by
  unfold selectRoots
  rw [if_neg (by omega), selectLoop_eq convertedRoots k.toNat 0 [] (by omega)]
  simp

theorem pipeline_of_no_problems (ds : Dataset) (h : (validate ds).1 = []) :
    pipeline ds =
      match selectRoots (validate ds).2 ds.k with
      | .error p => .panicked p
      | .ok selected => .coefficients (String.intercalate " " (outStrings (expand selected))) := by
  have hlen := validate_snd_length ds
  obtain ⟨ps, rs, hv, _, _, _⟩ := validate_shape ds
  have hS : structuralProblems ds = [] := by
    rw [hv] at h
    exact (List.append_eq_nil.mp h).1
  obtain ⟨hn, _⟩ := structuralProblems_eq_nil ds hS
  unfold pipeline
  rcases hval : validate ds with ⟨problems, convertedRoots⟩
  rw [hval] at h hlen
  simp only at h hlen
  subst h
  have hnot : ¬ ((convertedRoots.length : Int) ≠ ds.n) := by
    rw [hlen]; exact not_not.mpr hn
  simp only [List.length_nil, gt_iff_lt, lt_self_iff_false, if_false, hnot]

/-- C18: whenever validation records no problem and `k >= 0`, `convertedRoots` has
length `n`, `k <= n`, every index `i < k` used by the selection loop is below that
length, and the loop ends with the first `k` roots: no read is out of range. -/
theorem selection_reads_in_range (ds : Dataset) (hval : (validate ds).1 = [])
    (hk : 0 ≤ ds.k) :
    ((validate ds).2.length : Int) = ds.n ∧ ds.k ≤ ds.n ∧
    (∀ i : Nat, (i : Int) < ds.k → i < (validate ds).2.length) ∧
    selectRoots (validate ds).2 ds.k = .ok ((validate ds).2.take ds.k.toNat) ∧
    (∀ p : Panic, pipeline ds ≠ .panicked p) := by
  have hlen := validate_snd_length ds
  obtain ⟨ps, rs, hv, _, _, _⟩ := validate_shape ds
  have hS : structuralProblems ds = [] := by
    rw [hv] at hval
    exact (List.append_eq_nil.mp hval).1
  obtain ⟨hn, hkn⟩ := structuralProblems_eq_nil ds hS
  have hsel := selectRoots_of_le (validate ds).2 ds.k hk (by rw [hlen]; omega)
  refine ⟨by rw [hlen]; exact hn, hkn, ?_, hsel, ?_⟩
  · intro i hi
    rw [hlen]
    omega
  · intro p
    rw [pipeline_of_no_problems ds hval, hsel]
    simp

set_option maxRecDepth 100000 in
theorem selection_reads_in_range_witness :
    (validate (Dataset.mk [("2", ⟨"10", "7"⟩), ("1", ⟨"16", "ff"⟩)] 2 2)).1 = [] ∧
    (0 : Int) ≤ (Dataset.mk [("2", ⟨"10", "7"⟩), ("1", ⟨"16", "ff"⟩)] 2 2).k ∧
    selectRoots (validate (Dataset.mk [("2", ⟨"10", "7"⟩), ("1", ⟨"16", "ff"⟩)] 2 2)).2
      (Dataset.mk [("2", ⟨"10", "7"⟩), ("1", ⟨"16", "ff"⟩)] 2 2).k =
        .ok ((validate (Dataset.mk [("2", ⟨"10", "7"⟩), ("1", ⟨"16", "ff"⟩)] 2 2)).2.take
          (Dataset.mk [("2", ⟨"10", "7"⟩), ("1", ⟨"16", "ff"⟩)] 2 2).k.toNat) :=
  ⟨by decide, by decide,
    (selection_reads_in_range (Dataset.mk [("2", ⟨"10", "7"⟩), ("1", ⟨"16", "ff"⟩)] 2 2)
      (by decide) (by decide)).2.2.2.1⟩

set_option maxRecDepth 100000 in
/-- C12 (what the code does): a run ends in the problem report exactly when the problem
list is non-empty; with an empty problem list it ends in a coefficient line when
`0 <= k`, but in a run-time panic when `k < 0`, as on the dataset without entries with
`n = 0`, `k = -1`: there the outcome is neither the problem list nor coefficients. -/
theorem pipeline_outcome_by_cases :
    (∀ ds : Dataset,
      ((validate ds).1 ≠ [] → pipeline ds = .wrongDataset (validate ds).1) ∧
      ((validate ds).1 = [] → 0 ≤ ds.k → ∃ line, pipeline ds = .coefficients line) ∧
      ((validate ds).1 = [] → ds.k < 0 →
        pipeline ds = .panicked .makesliceCapOutOfRange)) ∧
    (validate (Dataset.mk [] 0 (-1))).1 = [] ∧
    pipeline (Dataset.mk [] 0 (-1)) = .panicked .makesliceCapOutOfRange := by
  refine ⟨fun ds => ⟨pipeline_of_problems ds, ?_, ?_⟩, by decide, by decide⟩
  · intro hval hk
    have hlen := validate_snd_length ds
    obtain ⟨ps, rs, hv, _, _, _⟩ := validate_shape ds
    have hS : structuralProblems ds = [] := by
      rw [hv] at hval
      exact (List.append_eq_nil.mp hval).1
    obtain ⟨hn, hkn⟩ := structuralProblems_eq_nil ds hS
    rw [pipeline_of_no_problems ds hval,
      selectRoots_of_le (validate ds).2 ds.k hk (by rw [hlen]; omega)]
    exact ⟨_, rfl⟩
  · intro hval hk
    rw [pipeline_of_no_problems ds hval]
    unfold selectRoots
    rw [if_pos hk]

/-! ## Independence of the enumeration order of the map -/

theorem lookup_of_mem_of_nodup {β : Type} :
    ∀ (l : List (String × β)) (k : String) (b : β),
      (l.map Prod.fst).Nodup → (k, b) ∈ l → l.lookup k = some b := by
  intro l
  induction l with
  | nil => intro k b _ hm; cases hm
  | cons p l ih =>
    intro k b hnd hm
    obtain ⟨k1, b1⟩ := p
    simp only [List.map_cons, List.nodup_cons] at hnd
    rw [List.lookup_cons]
    by_cases hk : k = k1
    · subst hk
      rcases List.mem_cons.mp hm with h | h
      · injection h with _ h2
        simp [h2]
      · exact absurd (List.mem_map_of_mem Prod.fst h) hnd.1
    · rcases List.mem_cons.mp hm with h | h
      · injection h with h1 _
        exact absurd h1 hk
      · have hne : (k == k1) = false := by simpa using hk
        rw [hne]
        exact ih k b hnd.2 h

theorem mem_of_lookup_eq_some {β : Type} (l : List (String × β)) (k : String) (b : β)
    (h : l.lookup k = some b) : (k, b) ∈ l := by
  obtain ⟨l1, l2, rfl, _⟩ := List.lookup_eq_some_iff.mp h
  simp

theorem lookup_eq_of_perm {β : Type} (l1 l2 : List (String × β)) (hp : l1.Perm l2)
    (hnd : (l1.map Prod.fst).Nodup) (k : String) : l1.lookup k = l2.lookup k := by
  have hnd2 : (l2.map Prod.fst).Nodup := (hp.map Prod.fst).nodup_iff.mp hnd
  cases h : l1.lookup k with
  | some b =>
    exact (lookup_of_mem_of_nodup l2 k b hnd2 (hp.subset (mem_of_lookup_eq_some l1 k b h))).symm
  | none =>
    symm
    rw [List.lookup_eq_none_iff] at h ⊢
    intro p hp2
    exact h p (hp.symm.subset hp2)

theorem eq_of_map_eq_of_injOn {α β : Type} (f : α → β) :
    ∀ (l1 l2 : List α), l1.map f = l2.map f →
      (∀ x ∈ l1, ∀ y ∈ l2, f x = f y → x = y) → l1 = l2 := by
  intro l1
  induction l1 with
  | nil =>
    intro l2 h _
    cases l2 with
    | nil => rfl
    | cons b l2 => simp at h
  | cons a l1 ih =>
    intro l2 h hinj
    cases l2 with
    | nil => simp at h
    | cons b l2 =>
      simp only [List.map_cons, List.cons.injEq] at h
      have hab : a = b := hinj a (List.mem_cons_self _ _) b (List.mem_cons_self _ _) h.1
      rw [hab, ih l2 h.2 (fun x hx y hy =>
        hinj x (List.mem_cons_of_mem _ hx) y (List.mem_cons_of_mem _ hy))]

theorem sortKeys_eq_of_perm (keys1 keys2 : List String) (hp : keys1.Perm keys2)
    (hnum : (keys1.map keyInt).Nodup) : (sortKeys keys1).2 = (sortKeys keys2).2 := by
  obtain ⟨p1, s1⟩ := sortKeys_perm_sorted keys1
  obtain ⟨p2, s2⟩ := sortKeys_perm_sorted keys2
  have hperm : (sortKeys keys1).2.Perm (sortKeys keys2).2 := (p1.trans hp).trans p2.symm
  have hmap : (sortKeys keys1).2.map keyInt = (sortKeys keys2).2.map keyInt :=
    List.eq_of_perm_of_sorted (hperm.map keyInt) s1 s2
  have hinj := List.inj_on_of_nodup_map hnum
  apply eq_of_map_eq_of_injOn keyInt _ _ hmap
  intro x hx y hy hxy
  exact hinj (p1.subset hx) (hp.symm.subset (p2.subset hy)) hxy

theorem entryStep_eq_of_perm (rm1 rm2 : List (String × RootEntry)) (hp : rm1.Perm rm2)
    (hnd : (rm1.map Prod.fst).Nodup) : entryStep rm1 = entryStep rm2 := by
  funext st key
  have hm : mapIndex rm1 key = mapIndex rm2 key := by
    unfold mapIndex
    rw [lookup_eq_of_perm rm1 rm2 hp hnd key]
  unfold entryStep
  rw [hm]

set_option maxRecDepth 100000 in
/-- C13 (the claim as stated fails): the keys `"1"` and `"01"` have the same numeric
value, the sort leaves them in the order the map enumerated them, and with `n = 2`,
`k = 1` the two enumeration orders of the same valid dataset print different coefficient
lines; with two defective entries under the keys `"a"` and `"b"` (both of numeric value
`0`) the two orders give the problems in different order. -/
theorem enumeration_order_changes_result :
    ([("01", ⟨"10", "7"⟩), ("1", ⟨"10", "4"⟩)] : List (String × RootEntry)).Perm
      [("1", ⟨"10", "4"⟩), ("01", ⟨"10", "7"⟩)] ∧
    (([("1", ⟨"10", "4"⟩), ("01", ⟨"10", "7"⟩)] : List (String × RootEntry)).map
      Prod.fst).Nodup ∧
    (validate (Dataset.mk [("1", ⟨"10", "4"⟩), ("01", ⟨"10", "7"⟩)] 2 1)).1 = [] ∧
    (validate (Dataset.mk [("01", ⟨"10", "7"⟩), ("1", ⟨"10", "4"⟩)] 2 1)).1 = [] ∧
    pipeline (Dataset.mk [("1", ⟨"10", "4"⟩), ("01", ⟨"10", "7"⟩)] 2 1) =
      .coefficients "1 -4" ∧
    pipeline (Dataset.mk [("01", ⟨"10", "7"⟩), ("1", ⟨"10", "4"⟩)] 2 1) =
      .coefficients "1 -7" ∧
    (validate (Dataset.mk [("a", ⟨"1", "4"⟩), ("b", ⟨"x", "7"⟩)] 2 1)).1 ≠
      (validate (Dataset.mk [("b", ⟨"x", "7"⟩), ("a", ⟨"1", "4"⟩)] 2 1)).1 := by
  refine ⟨by decide, by decide, by decide, by decide, by decide, by decide, by decide⟩

theorem validate_pipeline_eq_of_distinct_keyInts (rm1 rm2 : List (String × RootEntry))
    (n k : Int) (hp : rm1.Perm rm2) (hnum : ((rm1.map Prod.fst).map keyInt).Nodup) :
    validate (Dataset.mk rm1 n k) = validate (Dataset.mk rm2 n k) ∧
    pipeline (Dataset.mk rm1 n k) = pipeline (Dataset.mk rm2 n k) := by
  have hnd : (rm1.map Prod.fst).Nodup := List.Nodup.of_map keyInt hnum
  have hs := sortKeys_eq_of_perm (rm1.map Prod.fst) (rm2.map Prod.fst) (hp.map Prod.fst) hnum
  have he := entryStep_eq_of_perm rm1 rm2 hp hnd
  have hS : structuralProblems (Dataset.mk rm1 n k) = structuralProblems (Dataset.mk rm2 n k) := by
    unfold structuralProblems
    simp only [hp.length_eq]
  have hv : validate (Dataset.mk rm1 n k) = validate (Dataset.mk rm2 n k) := by
    unfold validate
    simp only [hs, he, hS]
  refine ⟨hv, ?_⟩
  unfold pipeline
  rw [hv]

/-! ## Facts about `parseDecimalToInt` -/

theorem parseDecimalLoop_error_iff (s : String) :
    ∀ (bytes : List Nat) (res : Int),
      (∃ e, parseDecimalLoop s bytes res = .error e) ↔ ∃ b ∈ bytes, b < 48 ∨ 57 < b := by
  intro bytes
  induction bytes with
  | nil =>
    intro res
    constructor
    · rintro ⟨e, he⟩
      simp [parseDecimalLoop] at he
    · rintro ⟨b, hb, _⟩
      cases hb
  | cons ch rest ih =>
    intro res
    rw [parseDecimalLoop]
    by_cases hc : ch < 48 ∨ ch > 57
    · rw [if_pos hc]
      exact ⟨fun _ => ⟨ch, List.mem_cons_self _ _, hc⟩, fun _ => ⟨_, rfl⟩⟩
    · rw [if_neg hc]
      simp only []
      rw [ih]
      constructor
      · rintro ⟨b, hb, h⟩
        exact ⟨b, List.mem_cons_of_mem _ hb, h⟩
      · rintro ⟨b, hb, h⟩
        rcases List.mem_cons.mp hb with rfl | hb
        · exact absurd h hc
        · exact ⟨b, hb, h⟩

theorem goBytes_eq_nil_iff (s : String) : goBytes s = [] ↔ s = "" := by
  constructor
  · intro h
    cases s with
    | mk data =>
      cases data with
      | nil => rfl
      | cons c cs =>
        obtain ⟨b0, rest, hb⟩ := utf8Bytes_cons c
        simp [goBytes, hb] at h
  · intro h
    subst h
    rfl

set_option maxRecDepth 100000 in
/-- C19: `parseDecimalToInt` fails exactly when its argument is the empty string or has,
after one optional leading `+` or `-`, a byte outside `'0'..'9'`; a lone sign is accepted
and parses to `0`, whereas `convertValueToBig` rejects a value that is empty after its
sign. -/
theorem parseDecimalToInt_fails_iff :
    (∀ s : String, (∃ e, parseDecimalToInt s = .error e) ↔
      (s = "" ∨ ∃ c0 rest, goBytes s = c0 :: rest ∧
        ∃ b ∈ (if c0 = 43 ∨ c0 = 45 then rest else c0 :: rest), b < 48 ∨ 57 < b)) ∧
    parseDecimalToInt "+" = .ok 0 ∧
    parseDecimalToInt "-" = .ok 0 ∧
    (∀ base : Int, convertValueToBig "+" base = .error .emptyAfterSign) ∧
    (∀ base : Int, convertValueToBig "-" base = .error .emptyAfterSign) := by
  refine ⟨?_, rfl, rfl,
    fun base => convertValueToBig_sign_only "+" base '+' rfl (Or.inl rfl),
    fun base => convertValueToBig_sign_only "-" base '-' rfl (Or.inr rfl)⟩
  intro s
  cases hb : goBytes s with
  | nil =>
    have hs : s = "" := (goBytes_eq_nil_iff s).mp hb
    constructor
    · intro _; exact Or.inl hs
    · intro _
      unfold parseDecimalToInt
      rw [hb]
      exact ⟨_, rfl⟩
  | cons c0 rest =>
    have hs : ¬ s = "" := fun h => by
      rw [(goBytes_eq_nil_iff s).mpr h] at hb
      cases hb
    unfold parseDecimalToInt
    rw [hb]
    simp only []
    by_cases h43 : c0 = 43
    · rw [if_pos h43, except_map_error_iff, parseDecimalLoop_error_iff]
      constructor
      · intro h
        exact Or.inr ⟨c0, rest, rfl, by rw [if_pos (Or.inl h43)]; exact h⟩
      · rintro (h | ⟨c1, rest1, he, h⟩)
        · exact absurd h hs
        · injection he with e1 e2
          subst e1 e2
          rw [if_pos (Or.inl h43)] at h
          exact h
    · rw [if_neg h43]
      by_cases h45 : c0 = 45
      · rw [if_pos h45, except_map_error_iff, parseDecimalLoop_error_iff]
        constructor
        · intro h
          exact Or.inr ⟨c0, rest, rfl, by rw [if_pos (Or.inr h45)]; exact h⟩
        · rintro (h | ⟨c1, rest1, he, h⟩)
          · exact absurd h hs
          · injection he with e1 e2
            subst e1 e2
            rw [if_pos (Or.inr h45)] at h
            exact h
      · have hno : ¬ (c0 = 43 ∨ c0 = 45) := fun h => h.elim h43 h45
        rw [if_neg h45, except_map_error_iff, parseDecimalLoop_error_iff]
        constructor
        · intro h
          exact Or.inr ⟨c0, rest, rfl, by rw [if_neg hno]; exact h⟩
        · rintro (h | ⟨c1, rest1, he, h⟩)
          · exact absurd h hs
          · injection he with e1 e2
            subst e1 e2
            rw [if_neg hno] at h
            exact h

set_option maxRecDepth 100000 in
/-- C17 (what the code does): the key `"9223372036854775808"`, nineteen decimal digits
denoting `2^63`, parses to `-9223372036854775808`, because `res*10 + d` is computed in
`int`; sorted together with the key `"1"` it therefore comes first. -/
theorem parseDecimalToInt_wraps_at_two_pow_63 :
    parseDecimalToInt "9223372036854775808" = .ok (-9223372036854775808) ∧
    keyInt "9223372036854775808" = -9223372036854775808 ∧
    (sortKeys ["1", "9223372036854775808"]).2 = ["9223372036854775808", "1"] := by
  refine ⟨by rfl, by decide, by decide⟩

set_option maxRecDepth 100000 in
/-- C11 (what the code does): an entry whose trimmed base fails to parse, or parses to
an integer outside 2..16, gets one problem naming its key and the zero placeholder,
whatever its value, and so does the all-empty entry. But the base field
`"18446744073709551626"` denotes `2^64 + 10`, outside 2..16, and parses to `10`: for the
entry with that base and the value `"4"` no problem is recorded, the value is decoded in
base 10 and the run prints coefficients. -/
theorem overlong_base_passes_validation :
    (∀ (rootMap : List (String × RootEntry)) (st : List Problem × List Int) (key : String),
      (∀ perr, parseDecimalToInt (TrimSpace (mapIndex rootMap key).Base) = .error perr →
        entryStep rootMap st key =
          (st.1 ++ [Problem.invalidBase key (mapIndex rootMap key).Base perr], st.2 ++ [0])) ∧
      (∀ base, parseDecimalToInt (TrimSpace (mapIndex rootMap key).Base) = .ok base →
        base < 2 ∨ base > 16 →
        entryStep rootMap st key =
          (st.1 ++ [Problem.unsupportedBase key base], st.2 ++ [0]))) ∧
    validate (Dataset.mk [("1", ⟨"", ""⟩)] 1 1) =
      ([Problem.invalidBase "1" "" ParseError.emptyString], [0]) ∧
    parseDecimalToInt (TrimSpace "18446744073709551626") = .ok 10 ∧
    validate (Dataset.mk [("1", ⟨"18446744073709551626", "4"⟩)] 1 1) = ([], [4]) ∧
    pipeline (Dataset.mk [("1", ⟨"18446744073709551626", "4"⟩)] 1 1) =
      .coefficients "1 -4" := by
  refine ⟨?_, by decide, by rfl, by decide, by decide⟩
  intro rootMap st key
  constructor
  · intro perr h
    unfold entryStep
    simp only [h]
  · intro base h hr
    unfold entryStep
    simp only [h, hr, if_true]

/-! ## `parseDecimalToInt` on digit strings within the range of `int` -/

theorem wrapInt_of_range (x : Int) (h1 : -9223372036854775808 ≤ x)
    (h2 : x < 9223372036854775808) : wrapInt x = x := by
  unfold wrapInt
  norm_num
  omega

theorem foldl_digits_ge :
    ∀ (ds : List Nat) (res : Int), 0 ≤ res →
      res ≤ ds.foldl (fun (a : Int) (d : Nat) => a * 10 + (d : Int)) res := by
  intro ds
  induction ds with
  | nil => intro res _; exact le_refl _
  | cons d ds ih =>
    intro res h
    rw [List.foldl_cons]
    have := ih (res * 10 + (d : Int)) (by omega)
    omega

/-- While the number read so far stays below `2^63`, the loop of `parseDecimalToInt`
computes it exactly. -/
theorem parseDecimalLoop_in_range (s : String) :
    ∀ (ds : List Nat) (res : Int), (∀ d ∈ ds, d < 10) → 0 ≤ res →
      ds.foldl (fun (a : Int) (d : Nat) => a * 10 + (d : Int)) res < 9223372036854775808 →
      parseDecimalLoop s (ds.map (· + 48)) res =
        .ok (ds.foldl (fun (a : Int) (d : Nat) => a * 10 + (d : Int)) res) := by
  intro ds
  induction ds with
  | nil => intro res _ _ _; rfl
  | cons d ds ih =>
    intro res hd h0 hv
    have hd10 : d < 10 := hd d (List.mem_cons_self _ _)
    rw [List.foldl_cons] at hv ⊢
    have hge := foldl_digits_ge ds (res * 10 + (d : Int)) (by omega)
    have hch : ¬ (d + 48 < 48 ∨ d + 48 > 57) := by omega
    rw [List.map_cons, parseDecimalLoop, if_neg hch]
    simp only []
    have e1 : wrapInt (res * 10) = res * 10 := wrapInt_of_range _ (by omega) (by omega)
    have e2 : ((d + 48 - 48 : Nat) : Int) = (d : Int) := by
      rw [Nat.add_sub_cancel]
    rw [e1, e2, wrapInt_of_range _ (by omega) (by omega)]
    exact ih _ (fun x hx => hd x (List.mem_cons_of_mem _ hx)) (by omega) hv

/-- On an optional sign followed by decimal digits `d₁ … dₘ` whose number is below
`2^63`, `parseDecimalToInt` returns the integer the string denotes. -/
theorem parseDecimalToInt_in_range (s : String) (ds : List Nat) (hd : ∀ d ∈ ds, d < 10)
    (hne : ds ≠ [])
    (hv : (∑ i ∈ Finset.range ds.length, (ds.getD i 0 : Int) * 10 ^ (ds.length - 1 - i))
      < 9223372036854775808) :
    (goBytes s = ds.map (· + 48) → parseDecimalToInt s =
      .ok (∑ i ∈ Finset.range ds.length, (ds.getD i 0 : Int) * 10 ^ (ds.length - 1 - i))) ∧
    (goBytes s = 43 :: ds.map (· + 48) → parseDecimalToInt s =
      .ok (∑ i ∈ Finset.range ds.length, (ds.getD i 0 : Int) * 10 ^ (ds.length - 1 - i))) ∧
    (goBytes s = 45 :: ds.map (· + 48) → parseDecimalToInt s =
      .ok (-(∑ i ∈ Finset.range ds.length, (ds.getD i 0 : Int) * 10 ^ (ds.length - 1 - i)))) := by
  have hf := foldl_positional 10 ds 0
  rw [zero_mul, zero_add] at hf
  have hloop := parseDecimalLoop_in_range s ds 0 hd (le_refl _) (by rw [hf]; exact hv)
  rw [hf] at hloop
  have hnn : (0 : Int) ≤
      ∑ i ∈ Finset.range ds.length, (ds.getD i 0 : Int) * 10 ^ (ds.length - 1 - i) := by
    rw [← hf]
    exact foldl_digits_ge ds 0 (le_refl _)
  refine ⟨?_, ?_, ?_⟩
  · intro hb
    cases ds with
    | nil => exact absurd rfl hne
    | cons d ds1 =>
      rw [List.map_cons] at hb
      unfold parseDecimalToInt
      rw [hb]
      simp only []
      rw [if_neg (by omega), if_neg (by omega), ← List.map_cons (· + 48) d ds1, hloop]
      simp only [Except.map, one_mul]
      rw [wrapInt_of_range _ (by omega) (by omega)]
  · intro hb
    unfold parseDecimalToInt
    rw [hb]
    simp only []
    rw [if_pos trivial, hloop]
    simp only [Except.map, one_mul]
    rw [wrapInt_of_range _ (by omega) (by omega)]
  · intro hb
    unfold parseDecimalToInt
    rw [hb]
    simp only []
    rw [if_neg (by decide), if_pos trivial, hloop]
    simp only [Except.map, neg_one_mul]
    rw [wrapInt_of_range _ (by omega) (by omega)]

set_option maxRecDepth 100000 in
/-- C1 (what the code does): for every dataset on which validation records no problem
and with `0 <= k`, the output is the space-joined decimal strings of the `k + 1`
coefficients, highest degree first, of the monic polynomial whose roots are the decoded
values of the first `k` entries in the order the sort leaves the keys in. That order is
ascending in `keyInts`, and `keyInts` holds the integer a key denotes whenever the key
is an optional sign followed by decimal digits whose number is below `2^63`. On `n = 3`,
`k = 2` with entries `1:(10, 4)`, `2:(10, 7)`, `3:(10, 12)`, however the map enumerates
them, the output is `"1 -11 28"`. But the key `"9223372036854775808"` gets the value
`-2^63`: with the entries `1:(10, 4)` and `9223372036854775808:(10, 7)`, `n = 2`,
`k = 1`, no problem is recorded and both enumeration orders print `"1 -7"`, the
polynomial of the root stored under the larger key. -/
theorem pipeline_emits_monic_product_coefficients :
    (∀ ds : Dataset, (validate ds).1 = [] → 0 ≤ ds.k →
      (sortKeys (ds.rootMap.map Prod.fst)).2.Perm (ds.rootMap.map Prod.fst) ∧
      ((sortKeys (ds.rootMap.map Prod.fst)).2.map keyInt).Sorted (· ≤ ·) ∧
      ∃ roots : List Int,
        (roots.length : Int) = ds.k ∧
        roots.length ≤ (sortKeys (ds.rootMap.map Prod.fst)).2.length ∧
        (∀ i : Nat, i < roots.length → ∃ base : Int,
          parseDecimalToInt (TrimSpace (mapIndex ds.rootMap
            ((sortKeys (ds.rootMap.map Prod.fst)).2.getD i "")).Base) = .ok base ∧
          2 ≤ base ∧ base ≤ 16 ∧
          convertValueToBig (mapIndex ds.rootMap
            ((sortKeys (ds.rootMap.map Prod.fst)).2.getD i "")).Value base
              = .ok (roots.getD i 0)) ∧
        ((roots.map fun r => (Polynomial.X - Polynomial.C r : Polynomial Int)).prod).Monic ∧
        ((roots.map fun r => (Polynomial.X - Polynomial.C r : Polynomial Int)).prod).natDegree
          = roots.length ∧
        pipeline ds = .coefficients (String.intercalate " "
          ((List.range (roots.length + 1)).map fun i =>
            bigString
              (((roots.map fun r =>
                (Polynomial.X - Polynomial.C r : Polynomial Int)).prod).coeff
                  (roots.length - i))))) ∧
    (∀ (key : String) (digits : List Nat), (∀ d ∈ digits, d < 10) → digits ≠ [] →
      (∑ i ∈ Finset.range digits.length,
        (digits.getD i 0 : Int) * 10 ^ (digits.length - 1 - i)) < 9223372036854775808 →
      (goBytes key = digits.map (· + 48) → keyInt key =
        ∑ i ∈ Finset.range digits.length,
          (digits.getD i 0 : Int) * 10 ^ (digits.length - 1 - i)) ∧
      (goBytes key = 43 :: digits.map (· + 48) → keyInt key =
        ∑ i ∈ Finset.range digits.length,
          (digits.getD i 0 : Int) * 10 ^ (digits.length - 1 - i)) ∧
      (goBytes key = 45 :: digits.map (· + 48) → keyInt key =
        -(∑ i ∈ Finset.range digits.length,
          (digits.getD i 0 : Int) * 10 ^ (digits.length - 1 - i)))) ∧
    (∀ rootMap : List (String × RootEntry),
      rootMap.Perm [("1", ⟨"10", "4"⟩), ("2", ⟨"10", "7"⟩), ("3", ⟨"10", "12"⟩)] →
      pipeline (Dataset.mk rootMap 3 2) = .coefficients "1 -11 28") ∧
    keyInt "9223372036854775808" = -9223372036854775808 ∧
    (validate (Dataset.mk
      [("1", ⟨"10", "4"⟩), ("9223372036854775808", ⟨"10", "7"⟩)] 2 1)).1 = [] ∧
    pipeline (Dataset.mk
      [("1", ⟨"10", "4"⟩), ("9223372036854775808", ⟨"10", "7"⟩)] 2 1) =
        .coefficients "1 -7" ∧
    pipeline (Dataset.mk
      [("9223372036854775808", ⟨"10", "7"⟩), ("1", ⟨"10", "4"⟩)] 2 1) =
        .coefficients "1 -7" := by
  refine ⟨?_, ?_, ?_, by decide, by decide, by decide, by decide⟩
  · intro ds hval hk
    obtain ⟨_, _, hperm, hmap⟩ :=
      sortOuter_basic (ds.rootMap.map Prod.fst).length 0
        ((ds.rootMap.map Prod.fst).map keyInt, ds.rootMap.map Prod.fst)
    have hsorted := sortKeys_sorted (ds.rootMap.map Prod.fst)
    have hmap2 : (sortKeys (ds.rootMap.map Prod.fst)).1 =
        (sortKeys (ds.rootMap.map Prod.fst)).2.map keyInt := hmap rfl
    refine ⟨hperm, by rw [← hmap2]; exact hsorted, ?_⟩
    obtain ⟨ps, rs, hv, hlen, _, hdec⟩ := validate_shape ds
    rw [hv] at hval
    obtain ⟨hS, hps⟩ := List.append_eq_nil.mp hval
    obtain ⟨hn, hkn⟩ := structuralProblems_eq_nil ds hS
    have hkl : ds.k.toNat ≤ rs.length := by omega
    have hsl : (sortKeys (ds.rootMap.map Prod.fst)).2.length = ds.rootMap.length := by
      rw [sortKeys_length, List.length_map]
    have htl : (rs.take ds.k.toNat).length = ds.k.toNat := by
      rw [List.length_take]; omega
    have hm := rootProduct_monic_natDegree (rs.take ds.k.toNat)
    refine ⟨rs.take ds.k.toNat, by rw [htl]; omega, by rw [htl, hsl]; omega, ?_, hm.1, hm.2, ?_⟩
    · intro i hi
      rw [htl] at hi
      obtain ⟨base, h1, h2, h3, h4⟩ := hdec hps i (by omega)
      refine ⟨base, h1, h2, h3, ?_⟩
      rw [h4]
      congr 1
      rw [List.getD_eq_getElem _ _ (by omega), List.getD_eq_getElem _ _ (by omega),
        List.getElem_take]
    · have hsel : selectRoots rs ds.k = .ok (rs.take ds.k.toNat) := by
        unfold selectRoots
        rw [if_neg (by omega), selectLoop_eq rs ds.k.toNat 0 [] (by omega)]
        simp
      have hnot : ¬ ((rs.length : Int) ≠ ds.n) := by
        rw [hlen]; exact not_not.mpr hn
      unfold pipeline
      rw [hv, hS, hps]
      simp only [List.append_nil, List.length_nil, gt_iff_lt, lt_self_iff_false, if_false, hnot,
        hsel]
      rw [(outStrings_expand_eq (rs.take ds.k.toNat))]
  · intro key digits hd hne hv
    obtain ⟨h1, h2, h3⟩ := parseDecimalToInt_in_range key digits hd hne hv
    refine ⟨fun hb => ?_, fun hb => ?_, fun hb => ?_⟩
    · unfold keyInt
      rw [h1 hb]
    · unfold keyInt
      rw [h2 hb]
    · unfold keyInt
      rw [h3 hb]
  · intro rootMap h
    rcases perm_three_entries rootMap h with rfl | rfl | rfl | rfl | rfl | rfl <;> decide


set_option maxRecDepth 100000 in
/-- C14 (what the code does): for every dataset the problem list is the count-mismatch
problem (present iff the entry count differs from `n`), then the k-greater-than-n
problem (present iff `k > n`), then, running through the entries in the order the sort
leaves the keys in (ascending in `keyInts`), exactly one problem for each entry whose
base `parseDecimalToInt` rejects, whose parsed base is outside 2..16, or whose value
`convertValueToBig` rejects, and nothing for the other entries. But the entry with the
base field `"18446744073709551626"` (`2^64 + 10`) contributes no problem, and the
problem of the key `"9223372036854775808"` comes before that of the key `"1"` in both
enumeration orders. -/
theorem problems_in_fixed_order :
    (∀ ds : Dataset,
    (validate ds).1 =
      (if (ds.rootMap.length : Int) ≠ ds.n then
        [Problem.countMismatch ds.rootMap.length ds.n] else []) ++
      (if ds.k > ds.n then [Problem.kGreaterThanN ds.k ds.n] else []) ++
      (sortKeys (ds.rootMap.map Prod.fst)).2.filterMap (fun key =>
        match parseDecimalToInt (TrimSpace (mapIndex ds.rootMap key).Base) with
        | .error perr => some (Problem.invalidBase key (mapIndex ds.rootMap key).Base perr)
        | .ok base =>
          if base < 2 ∨ base > 16 then some (Problem.unsupportedBase key base)
          else
            match convertValueToBig (mapIndex ds.rootMap key).Value base with
            | .error verr =>
              some (Problem.invalidValue key base (mapIndex ds.rootMap key).Value verr)
            | .ok _ => none) ∧
    (sortKeys (ds.rootMap.map Prod.fst)).2.Perm (ds.rootMap.map Prod.fst) ∧
    ((sortKeys (ds.rootMap.map Prod.fst)).2.map keyInt).Sorted (· ≤ ·)) ∧
    (validate (Dataset.mk [("1", ⟨"18446744073709551626", "4"⟩)] 1 1)).1 = [] ∧
    (validate (Dataset.mk
      [("1", ⟨"1", "4"⟩), ("9223372036854775808", ⟨"x", "7"⟩)] 2 1)).1 =
        [Problem.invalidBase "9223372036854775808" "x"
            (ParseError.invalidDecimalCharacter 120 "x"),
          Problem.unsupportedBase "1" 1] ∧
    (validate (Dataset.mk
      [("9223372036854775808", ⟨"x", "7"⟩), ("1", ⟨"1", "4"⟩)] 2 1)).1 =
        [Problem.invalidBase "9223372036854775808" "x"
            (ParseError.invalidDecimalCharacter 120 "x"),
          Problem.unsupportedBase "1" 1] := by
  refine ⟨fun ds => ⟨?_, sortKeys_perm_sorted _⟩, by decide, by decide, by decide⟩
  rw [validate, foldl_entryStep_eq, structuralProblems_eq]


set_option maxRecDepth 100000 in
/-- C16 (what the code does): for every dataset, after the per-entry pass
`convertedRoots` has exactly one element per entry, in the order the sort leaves the keys
in (ascending in `keyInts`), the element being the decoded value when the base parses,
the parsed base is in 2..16 and the value decodes, and `0` otherwise; its length can
differ from `n` only if the count-mismatch problem is in the problem list, and the run
never ends in the post-pass discrepancy report. But for the entry with the base field
`"18446744073709551626"` (`2^64 + 10`) and the value `"4"` the stored element is `4`, not
`0`, and the root of the key `"9223372036854775808"` is stored before that of the key
`"1"` in both enumeration orders. -/
theorem convertedRoots_one_per_entry :
    (∀ ds : Dataset,
    (validate ds).2 =
      (sortKeys (ds.rootMap.map Prod.fst)).2.map (fun key =>
        match parseDecimalToInt (TrimSpace (mapIndex ds.rootMap key).Base) with
        | .error _ => (0 : Int)
        | .ok base =>
          if base < 2 ∨ base > 16 then 0
          else
            match convertValueToBig (mapIndex ds.rootMap key).Value base with
            | .error _ => 0
            | .ok valBig => valBig) ∧
    (sortKeys (ds.rootMap.map Prod.fst)).2.Perm (ds.rootMap.map Prod.fst) ∧
    ((sortKeys (ds.rootMap.map Prod.fst)).2.map keyInt).Sorted (· ≤ ·) ∧
    (validate ds).2.length = ds.rootMap.length ∧
    (((validate ds).2.length : Int) ≠ ds.n →
      Problem.countMismatch ds.rootMap.length ds.n ∈ (validate ds).1) ∧
    (∀ found n : Int, pipeline ds ≠ .rootCountDiffers found n)) ∧
    validate (Dataset.mk [("1", ⟨"18446744073709551626", "4"⟩)] 1 1) = ([], [4]) ∧
    validate (Dataset.mk
      [("1", ⟨"10", "4"⟩), ("9223372036854775808", ⟨"10", "7"⟩)] 2 1) = ([], [7, 4]) ∧
    validate (Dataset.mk
      [("9223372036854775808", ⟨"10", "7"⟩), ("1", ⟨"10", "4"⟩)] 2 1) = ([], [7, 4]) := by
  refine ⟨fun ds => ?_, by decide, by decide, by decide⟩
  have hlen := validate_snd_length ds
  refine ⟨?_, (sortKeys_perm_sorted _).1, (sortKeys_perm_sorted _).2, hlen, ?_, ?_⟩
  · rw [validate, foldl_entryStep_eq]
    simp
  · intro hne
    rw [hlen] at hne
    obtain ⟨ps, rs, hv, _, _, _⟩ := validate_shape ds
    rw [hv, structuralProblems_eq, if_pos hne]
    simp
  · intro found n
    by_cases hp : (validate ds).1 = []
    · rw [pipeline_of_no_problems ds hp]
      split <;> simp
    · rw [pipeline_of_problems ds hp]
      simp


/-! ## What every enumeration order of the map shares -/

theorem expand_eq_of_perm_aux (l1 l2 : List Int) (h : l1.Perm l2) : expand l1 = expand l2 := by
  apply List.ext_getElem
  · rw [expand_length, expand_length, h.length_eq]
  · intro i h1 h2
    have e1 := expand_getD l1 i
    have e2 := expand_getD l2 i
    rw [List.getD_eq_getElem _ _ h1] at e1
    rw [List.getD_eq_getElem _ _ h2] at e2
    rw [e1, e2, (h.map fun r => (Polynomial.X - Polynomial.C r : Polynomial Int)).prod_eq]

theorem pipeline_of_valid_full (ds : Dataset) (hval : (validate ds).1 = [])
    (hk : ds.k = ds.n) :
    pipeline ds =
      .coefficients (String.intercalate " " (outStrings (expand (validate ds).2))) := by
  have hlen := validate_snd_length ds
  obtain ⟨ps, rs, hv, _, _, _⟩ := validate_shape ds
  have hS : structuralProblems ds = [] := by
    rw [hv] at hval
    exact (List.append_eq_nil.mp hval).1
  obtain ⟨hn, _⟩ := structuralProblems_eq_nil ds hS
  have hkl : ds.k = ((validate ds).2.length : Int) := by rw [hlen, hk, hn]
  rw [pipeline_of_no_problems ds hval,
    selectRoots_of_le (validate ds).2 ds.k (by omega) (by omega),
    List.take_of_length_le (by omega)]

theorem validate_eq_foldl_of_perm (rm1 rm2 : List (String × RootEntry)) (n k : Int)
    (hp : rm1.Perm rm2) (hnd : (rm1.map Prod.fst).Nodup) :
    validate (Dataset.mk rm1 n k) =
      (sortKeys (rm1.map Prod.fst)).2.foldl (entryStep rm2)
        (structuralProblems (Dataset.mk rm2 n k), []) := by
  have he := entryStep_eq_of_perm rm1 rm2 hp hnd
  have hS : structuralProblems (Dataset.mk rm1 n k) = structuralProblems (Dataset.mk rm2 n k) := by
    unfold structuralProblems
    simp only [hp.length_eq]
  unfold validate
  simp only [he, hS]

/-- C13 (amended): for any two enumeration orders of the same set of (key, entry) pairs
with the same `n` and `k`, the two problem lists hold the same problems with the same
multiplicities (one is a permutation of the other), so one is empty exactly when the
other is, and the stored roots are a permutation of each other; when the keys have
pairwise distinct numeric values (`parseDecimalToInt` of the key, `0` when it fails) the
problem list, the roots and the outcome are identical; and when no problem is recorded
and `k = n` the outcome is identical. -/
theorem enumeration_order_invariants (rm1 rm2 : List (String × RootEntry)) (n k : Int)
    (hp : rm1.Perm rm2) (hnd : (rm1.map Prod.fst).Nodup) :
    (validate (Dataset.mk rm1 n k)).1.Perm (validate (Dataset.mk rm2 n k)).1 ∧
    ((validate (Dataset.mk rm1 n k)).1 = [] ↔ (validate (Dataset.mk rm2 n k)).1 = []) ∧
    (validate (Dataset.mk rm1 n k)).2.Perm (validate (Dataset.mk rm2 n k)).2 ∧
    (((rm1.map Prod.fst).map keyInt).Nodup →
      validate (Dataset.mk rm1 n k) = validate (Dataset.mk rm2 n k) ∧
      pipeline (Dataset.mk rm1 n k) = pipeline (Dataset.mk rm2 n k)) ∧
    ((validate (Dataset.mk rm1 n k)).1 = [] → k = n →
      pipeline (Dataset.mk rm1 n k) = pipeline (Dataset.mk rm2 n k)) := by
  obtain ⟨p1, _⟩ := sortKeys_perm_sorted (rm1.map Prod.fst)
  obtain ⟨p2, _⟩ := sortKeys_perm_sorted (rm2.map Prod.fst)
  have hsp : (sortKeys (rm1.map Prod.fst)).2.Perm (sortKeys (rm2.map Prod.fst)).2 :=
    (p1.trans (hp.map Prod.fst)).trans p2.symm
  have hv1 := validate_eq_foldl_of_perm rm1 rm2 n k hp hnd
  have hv2 : validate (Dataset.mk rm2 n k) =
      (sortKeys (rm2.map Prod.fst)).2.foldl (entryStep rm2)
        (structuralProblems (Dataset.mk rm2 n k), []) := rfl
  have hprob : (validate (Dataset.mk rm1 n k)).1.Perm (validate (Dataset.mk rm2 n k)).1 := by
    rw [hv1, hv2, foldl_entryStep_eq, foldl_entryStep_eq]
    exact (hsp.filterMap _).append_left _
  have hroots : (validate (Dataset.mk rm1 n k)).2.Perm (validate (Dataset.mk rm2 n k)).2 := by
    rw [hv1, hv2, foldl_entryStep_eq, foldl_entryStep_eq]
    exact (hsp.map _).append_left _
  have hiff : (validate (Dataset.mk rm1 n k)).1 = [] ↔ (validate (Dataset.mk rm2 n k)).1 = [] := by
    constructor
    · intro h
      rw [h] at hprob
      exact hprob.nil_eq.symm
    · intro h
      rw [h] at hprob
      exact hprob.eq_nil
  refine ⟨hprob, hiff, hroots, ?_, ?_⟩
  · intro hnum
    exact validate_pipeline_eq_of_distinct_keyInts rm1 rm2 n k hp hnum
  · intro hval hk
    rw [pipeline_of_valid_full _ hval hk, pipeline_of_valid_full _ (hiff.mp hval) hk,
      expand_eq_of_perm_aux _ _ hroots]

set_option maxRecDepth 100000 in
theorem enumeration_order_invariants_witness :
    ([("01", ⟨"10", "7"⟩), ("1", ⟨"x", "4"⟩)] : List (String × RootEntry)).Perm
      [("1", ⟨"x", "4"⟩), ("01", ⟨"10", "7"⟩)] ∧
    (([("01", ⟨"10", "7"⟩), ("1", ⟨"x", "4"⟩)] : List (String × RootEntry)).map
      Prod.fst).Nodup ∧
    (validate (Dataset.mk [("01", ⟨"10", "7"⟩), ("1", ⟨"x", "4"⟩)] 2 1)).1.Perm
      (validate (Dataset.mk [("1", ⟨"x", "4"⟩), ("01", ⟨"10", "7"⟩)] 2 1)).1 ∧
    (validate (Dataset.mk [("01", ⟨"10", "7"⟩), ("1", ⟨"x", "4"⟩)] 2 1)).2.Perm
      (validate (Dataset.mk [("1", ⟨"x", "4"⟩), ("01", ⟨"10", "7"⟩)] 2 1)).2 :=
  ⟨by decide, by decide,
    (enumeration_order_invariants [("01", ⟨"10", "7"⟩), ("1", ⟨"x", "4"⟩)]
      [("1", ⟨"x", "4"⟩), ("01", ⟨"10", "7"⟩)] 2 1 (by decide) (by decide)).1,
    (enumeration_order_invariants [("01", ⟨"10", "7"⟩), ("1", ⟨"x", "4"⟩)]
      [("1", ⟨"x", "4"⟩), ("01", ⟨"10", "7"⟩)] 2 1 (by decide) (by decide)).2.2.1⟩


end PolyRecon
